import Mathlib

/-!
Verification development for the `lk_heuristic` TSP repository.

The repository's core is a mutable doubly-linked cyclic tour
(`models/tour.py`) together with a Lin-Kernighan search engine
(`lk_heuristic/models/tsp.py`).  Nodes live in a fixed Python list; after
`Tour.set_nodes` every node's `id` equals its list index, so we represent a
node by its index `Fin n`.  The mutable per-node attributes `succ`, `pred`
(the cyclic doubly-linked list) and `pos` (an integer position hint) become
explicit state: a `TourState` record of functions on `Fin n`.  Python `while`
loops that traverse the linked structure are translated with an explicit
`fuel` argument; on every state reached in the claims' hypotheses the loops
terminate within `n` iterations, so instantiating `fuel := n` (or a larger
concrete number) reproduces the Python behaviour exactly.
-/

namespace LK

/-- Mutable per-node state of a tour: the `succ`, `pred` and `pos` attributes
set by `Tour.set_nodes` and mutated by the swap primitives, plus the node
`id` attribute (assigned once by `set_nodes`, never written afterwards). -/
structure TourState (n : ℕ) where
  succ : Fin n → Fin n
  pred : Fin n → Fin n
  pos : Fin n → ℤ
  ids : Fin n → ℕ
  deriving DecidableEq

/-- Canonical edge of the packaged `lk_heuristic/models/edge.py`: the
constructor orders the two nodes by `<`, which for the packaged `Node`
class compares `id`s (nodes here are their ids). -/
def mkEdgeId {n : ℕ} (a b : Fin n) : Fin n × Fin n :=
  if a < b then (a, b) else (b, a)

/-- `Tour.is_swap_feasible` from `models/tour.py` (lines 286-330): all four
nodes pairwise distinct, and when `(t1,t2)` is oriented along `succ`
(resp. `pred`), `t4` must be `t3.pred` (resp. `t3.succ`).  When `t2` is not
adjacent to `t1` neither orientation branch fires and the function falls
through to `return True`. -/
def isSwapFeasible {n : ℕ} (s : TourState n) (t1 t2 t3 t4 : Fin n) : Bool :=
  if ¬(t1 ≠ t2 ∧ t1 ≠ t3 ∧ t1 ≠ t4 ∧ t2 ≠ t3 ∧ t2 ≠ t4 ∧ t3 ≠ t4) then false
  else if s.succ t1 = t2 then decide (t4 = s.pred t3)
  else if s.pred t1 = t2 then decide (t4 = s.succ t3)
  else true

/-- `Tour.is_swap_unfeasible` from `models/tour.py` (lines 332-379): pairwise
distinct, the orientation dual to the feasible one, and no adjacency between
`t2,t3` or `t1,t4` (each resulting sub-cycle must have at least 3 nodes). -/
def isSwapUnfeasible {n : ℕ} (s : TourState n) (t1 t2 t3 t4 : Fin n) : Bool :=
  if ¬(t1 ≠ t2 ∧ t1 ≠ t3 ∧ t1 ≠ t4 ∧ t2 ≠ t3 ∧ t2 ≠ t4 ∧ t3 ≠ t4) then false
  else if s.succ t1 = t2 then
    if t4 = s.pred t3 then false
    else if s.pred t2 = t3 ∨ s.succ t2 = t3 ∨ s.pred t1 = t4 ∨ s.succ t1 = t4 then false
    else true
  else if s.pred t1 = t2 then
    if t4 = s.succ t3 then false
    else if s.pred t2 = t3 ∨ s.succ t2 = t3 ∨ s.pred t1 = t4 ∨ s.succ t1 = t4 then false
    else true
  else
    if s.pred t2 = t3 ∨ s.succ t2 = t3 ∨ s.pred t1 = t4 ∨ s.succ t1 = t4 then false
    else true

/-- The tour `0 → 1 → 2 → 3 → 4 → 5 → 0` exactly as `Tour.set_nodes` builds
it from a six-node list (`succ` is the next index cyclically, `pred` the
previous one, `pos` and `id` the index itself). -/
def demoTour6 : TourState 6 :=
  { succ := fun i => i + 1
    pred := fun i => i - 1
    pos := fun i => (i.val : ℤ)
    ids := fun i => i.val }

end LK

namespace LK

/-- **C2.** For any quadruple `(t1,t2,t3,t4)` such that `(t1,t2)` and
`(t3,t4)` are two distinct edges of the current tour, `is_swap_feasible` and
`is_swap_unfeasible` never both return true, and each returns false whenever
any two of the four nodes are equal. -/
theorem is_swap_feasible_unfeasible_exclusive {n : ℕ} (s : TourState n)
    (t1 t2 t3 t4 : Fin n)
    (hedge1 : t2 = s.succ t1 ∨ t2 = s.pred t1)
    (hedge2 : t4 = s.succ t3 ∨ t4 = s.pred t3)
    (hdistinct : mkEdgeId t1 t2 ≠ mkEdgeId t3 t4) :
    ¬(isSwapFeasible s t1 t2 t3 t4 = true ∧ isSwapUnfeasible s t1 t2 t3 t4 = true) ∧
    ((t1 = t2 ∨ t1 = t3 ∨ t1 = t4 ∨ t2 = t3 ∨ t2 = t4 ∨ t3 = t4) →
      isSwapFeasible s t1 t2 t3 t4 = false ∧ isSwapUnfeasible s t1 t2 t3 t4 = false) := by
  constructor
  · rintro ⟨hf, hu⟩
    unfold isSwapFeasible at hf
    unfold isSwapUnfeasible at hu
    by_cases hd : t1 ≠ t2 ∧ t1 ≠ t3 ∧ t1 ≠ t4 ∧ t2 ≠ t3 ∧ t2 ≠ t4 ∧ t3 ≠ t4
    · rw [if_neg (not_not_intro hd)] at hf
      rw [if_neg (not_not_intro hd)] at hu
      by_cases h1 : s.succ t1 = t2
      · simp only [h1, if_pos rfl, if_true, eq_self_iff_true, decide_eq_true_eq] at hf hu
        rw [if_pos hf] at hu
        exact Bool.false_ne_true hu
      · rcases hedge1 with h | h
        · exact h1 h.symm
        · simp only [if_neg h1, h.symm, if_pos rfl, if_true, eq_self_iff_true, decide_eq_true_eq] at hf hu
          rw [if_pos hf] at hu
          exact Bool.false_ne_true hu
    · simp only [if_pos hd] at hf
      exact Bool.false_ne_true hf
  · intro heq
    have hd : ¬(t1 ≠ t2 ∧ t1 ≠ t3 ∧ t1 ≠ t4 ∧ t2 ≠ t3 ∧ t2 ≠ t4 ∧ t3 ≠ t4) := by
      rcases heq with h | h | h | h | h | h <;> simp [h]
    unfold isSwapFeasible isSwapUnfeasible
    rw [if_pos hd, if_pos hd]
    exact ⟨rfl, rfl⟩

/-- Witness for C2 on the concrete six-node tour: the quadruple
`(0,1,4,3)` consists of the two distinct tour edges `(0,1)` and `(4,3)`. -/
theorem is_swap_feasible_unfeasible_exclusive_witness :
    ¬(isSwapFeasible demoTour6 0 1 4 3 = true ∧ isSwapUnfeasible demoTour6 0 1 4 3 = true) ∧
    ((0 : Fin 6) = 1 ∨ (0 : Fin 6) = 4 ∨ (0 : Fin 6) = 3 ∨ (1 : Fin 6) = 4 ∨
      (1 : Fin 6) = 3 ∨ (4 : Fin 6) = 3 →
      isSwapFeasible demoTour6 0 1 4 3 = false ∧ isSwapUnfeasible demoTour6 0 1 4 3 = false) :=
  is_swap_feasible_unfeasible_exclusive demoTour6 0 1 4 3
    (Or.inl (by decide)) (Or.inr (by decide)) (by decide)

end LK

namespace LK

/-- The five values of the swap-record tag pushed on `Tour.swap_stack`
(the Python strings `"swap_feasible"`, `"swap_unfeasible"`,
`"swap_node_between_t2_t3"`, `"swap_node_between_t2_t3_reversed"`,
`"swap_feasible_reversed"`). -/
inductive SwapKind where
  | feasible
  | unfeasible
  | nodeBetween
  | nodeBetweenRev
  | feasibleRev
  deriving DecidableEq

/-- An entry of `Tour.swap_stack`: `(n1, n2, n3, n4, swap_operation)`. -/
abbrev SwapRec (n : ℕ) := Fin n × Fin n × Fin n × Fin n × SwapKind

/-- A `Tour` object as far as the swap primitives and `restore` are
concerned: the per-node state plus `swap_stack` (`self.size` is `n`). -/
structure TourFull (n : ℕ) where
  st : TourState n
  stack : List (SwapRec n)
  deriving DecidableEq

namespace Tour

open Function

variable {n : ℕ}

/-- The node-reordering `while` loop of `Tour.swap_feasible` (lines 443-456):
starting at `t3` and following the original `succ` chain until `end_node`,
swap each node's `succ`/`pred` and (when not a subtour) assign decreasing
`pos` values.  `fuel` bounds the iteration count; the Python loop terminates
within `n` steps on the states covered by the claims. -/
def revSegment : ℕ → Fin n → Fin n → Bool → ℤ → TourState n → TourState n
  | 0, _, _, _, _, s => s
  | fuel + 1, node, endNode, isSub, p, s =>
    if node = endNode then s
    else
      let temp := s.succ node
      let s1 : TourState n :=
        { s with succ := update s.succ node (s.pred node)
                 pred := update s.pred node temp }
      let s2 := if isSub then s1 else { s1 with pos := update s1.pos node p }
      revSegment fuel temp endNode isSub (if isSub then p else p - 1) s2

/-- `Tour.swap_feasible` (lines 381-470).  Step 1 swaps the roles of
`(t1,t2)` and `(t3,t4)` when `t2` is not `t1`'s successor; step 2 swaps
`(t1,t4)` and `(t2,t3)` when the `pos`-computed segment `t3..t1` holds more
than half the nodes; then the segment from `t3` to `t1` is reversed and the
four endpoints are rewired.  When `record` is set, the (possibly
role-swapped) nodes are pushed on the swap stack with kind `feasible`
(or `feasibleRev` when `is_subtour`). -/
def swapFeasible (t : TourFull n) (u1 u2 u3 u4 : Fin n) (isSubtour rcd : Bool) :
    TourFull n :=
  let s := t.st
  let q1 := if s.succ u1 ≠ u2 then (u2, u1, u4, u3) else (u1, u2, u3, u4)
  let segSize0 : ℤ := s.pos q1.2.1 - s.pos q1.2.2.1
  let segSize : ℤ := if segSize0 < 0 then segSize0 + n else segSize0
  let q : Fin n × Fin n × Fin n × Fin n :=
    if 2 * segSize > (n : ℤ) then (q1.2.2.2, q1.2.2.1, q1.2.1, q1.1) else q1
  let t1 := q.1
  let t2 := q.2.1
  let t3 := q.2.2.1
  let t4 := q.2.2.2
  let p := s.pos t1
  let endNode := s.succ t1
  let s' := revSegment (n + 1) t3 endNode isSubtour p s
  let s'' : TourState n :=
    { s' with succ := update (update s'.succ t3 t2) t4 t1
              pred := update (update s'.pred t2 t3) t1 t4 }
  { st := s''
    stack :=
      if rcd then
        t.stack ++ [(t1, t2, t3, t4, if isSubtour then .feasibleRev else .feasible)]
      else t.stack }

/-- The segment-reversal `while` loop of `Tour.swap_unfeasible`
(lines 518-536): walk backwards along `pred` from `t4` until the node whose
`pred` is `t4`, flipping `succ`/`pred` of each visited node. -/
def revT1T4Loop : ℕ → Fin n → Fin n → TourState n → TourState n
  | 0, _, _, s => s
  | fuel + 1, node, t4, s =>
    if s.pred node = t4 then s
    else
      let temp := s.pred node
      let s' : TourState n :=
        { s with pred := update s.pred node (s.succ node)
                 succ := update s.succ node temp }
      revT1T4Loop fuel temp t4 s'

/-- `Tour.swap_unfeasible` (lines 472-540).  When `t2` is `t1`'s successor
the four roles are swapped; then the four endpoints are rewired to
`t3.pred = t2`, `t2.succ = t3`, `t1.pred = t4`, `t4.succ = t1`, producing
two disjoint cycles from a feasible tour.  When `reverse_subtour` is set the
`t1`-`t4` segment is reversed afterwards.  Records kind `unfeasible`. -/
def swapUnfeasible (t : TourFull n) (u1 u2 u3 u4 : Fin n)
    (reverseSubtour rcd : Bool) : TourFull n :=
  let s := t.st
  let q : Fin n × Fin n × Fin n × Fin n :=
    if s.succ u1 = u2 then (u4, u3, u2, u1) else (u1, u2, u3, u4)
  let t1 := q.1
  let t2 := q.2.1
  let t3 := q.2.2.1
  let t4 := q.2.2.2
  let s1 : TourState n :=
    { s with pred := update (update s.pred t3 t2) t1 t4
             succ := update (update s.succ t2 t3) t4 t1 }
  let s2 :=
    if reverseSubtour then
      let sA := revT1T4Loop (n + 1) t4 t4 s1
      { sA with pred := update sA.pred t1 (sA.succ t1)
                succ := update sA.succ t1 t4 }
    else s1
  { st := s2
    stack := if rcd then t.stack ++ [(t1, t2, t3, t4, .unfeasible)] else t.stack }

/-- The segment-reversal loop of `Tour.swap_node_between_t2_t3`
(lines 584-596): walk backwards along `pred` from `from_node` to `to_node`
flipping `succ`/`pred`, and finally flip `to_node` itself. -/
def revBetweenLoop : ℕ → Fin n → Fin n → TourState n → TourState n
  | 0, _, _, s => s
  | fuel + 1, fromN, toN, s =>
    if fromN = toN then
      { s with pred := update s.pred toN (s.succ toN)
               succ := update s.succ toN (s.pred toN) }
    else
      let temp := s.pred fromN
      let s' : TourState n :=
        { s with pred := update s.pred fromN (s.succ fromN)
                 succ := update s.succ fromN temp }
      revBetweenLoop fuel temp toN s'

/-- `Tour.swap_node_between_t2_t3` (lines 542-617): from an unfeasible
two-cycle state, break `(t1,t4)` and `(t5,t6)` and reconnect the two cycles
into one, reversing the `t5`-`t6` segment first when the two local
orientations disagree.  Records kind `nodeBetween` or `nodeBetweenRev`. -/
def swapNodeBetween (t : TourFull n) (t1 t4 t5 t6 : Fin n) (rcd : Bool) :
    TourFull n :=
  let s := t.st
  let t4AfterT1 := s.succ t1 = t4
  let t6AfterT5 := s.succ t5 = t6
  let reverseSub := t4AfterT1 ≠ t6AfterT5
  let s1 :=
    if reverseSub then
      if t6AfterT5 then revBetweenLoop (n + 1) t5 t6 s
      else revBetweenLoop (n + 1) t6 t5 s
    else s
  let s2 : TourState n :=
    if t4AfterT1 then
      { s1 with succ := update (update s1.succ t1 t6) t5 t4
                pred := update (update s1.pred t6 t1) t4 t5 }
    else
      { s1 with pred := update (update s1.pred t1 t6) t5 t4
                succ := update (update s1.succ t6 t1) t4 t5 }
  { st := s2
    stack :=
      if rcd then
        t.stack ++ [(t1, t4, t5, t6, if reverseSub then .nodeBetweenRev else .nodeBetween)]
      else t.stack }

/-- The `while` loop of `Tour.set_pos` (lines 107-121): walk `succ` from
`nodes[0]`, assigning each node `pos = pred.pos + 1`. -/
def setPosLoop [NeZero n] : ℕ → Fin n → TourState n → TourState n
  | 0, _, s => s
  | fuel + 1, curr, s =>
    if s.succ curr = 0 then s
    else
      let c := s.succ curr
      let s' : TourState n := { s with pos := update s.pos c (s.pos (s.pred c) + 1) }
      setPosLoop fuel c s'

/-- `Tour.set_pos`: start at `nodes[0]` with `pos = 0` and walk the cycle. -/
def setPos [NeZero n] (t : TourFull n) : TourFull n :=
  { t with st := setPosLoop n 0 { t.st with pos := update t.st.pos 0 0 } }

/-- One iteration of the undo loop of `Tour.restore` (lines 207-235):
read the last stack entry, apply the inverse swap determined by its kind
(without recording), pop. -/
def restoreLoop [NeZero n] : ℕ → TourFull n → TourFull n
  | 0, t => t
  | k + 1, t =>
    match t.stack.getLast? with
    | none => t
    | some (c1, c2, c3, c4, kind) =>
      let t' :=
        match kind with
        | .feasible => swapFeasible t c4 c1 c2 c3 false false
        | .feasibleRev => swapFeasible t c4 c1 c2 c3 true false
        | .unfeasible => swapUnfeasible t c4 c1 c2 c3 false false
        | .nodeBetween => swapUnfeasible t c4 c1 c2 c3 false false
        | .nodeBetweenRev => swapUnfeasible t c4 c1 c2 c3 true false
      restoreLoop k { t' with stack := t'.stack.dropLast }

/-- `Tour.restore` (lines 194-241): undo the last `swaps` stack entries
(all of them when `swaps` is `none`), then recompute `pos` when any
remaining recorded swap is not a plain feasible one. -/
def restore [NeZero n] (t : TourFull n) (swaps : Option ℕ) : TourFull n :=
  let k := match swaps with | none => t.stack.length | some k => k
  let t' := restoreLoop k t
  if t'.stack.any (fun r => r.2.2.2.2 ≠ SwapKind.feasible) then setPos t' else t'

end Tour

/-- The six-node `Tour` object fresh from construction (empty swap stack). -/
def demoFull6 : TourFull 6 := { st := demoTour6, stack := [] }

end LK

namespace LK

/-- **C1 (code bug).**  The claim says that after any sequence of recorded
swaps a full `restore()` returns every node's `succ` and `pred` to their
original values.  On the fresh six-node tour the recorded call
`swap_feasible(n0, n1, n4, n3)` is a valid feasible swap whose two arcs both
contain exactly `N/2 = 3` nodes; the `2*seg_size > size` test of
`swap_feasible` then leaves the roles unswapped both in the forward swap and
in the inverse call made by `restore`, so the undo reverses the wrong arc:
the restored tour is the original cycle with every `succ` and `pred`
globally exchanged (succ 0 becomes 5 instead of 1), not the original
pointer state. -/
theorem restore_after_equal_arc_swap_flips_orientation :
    isSwapFeasible demoFull6.st 0 1 4 3 = true ∧
    (Tour.restore (Tour.swapFeasible demoFull6 0 1 4 3 false true) none).stack = [] ∧
    (Tour.restore (Tour.swapFeasible demoFull6 0 1 4 3 false true) none).st.succ 0 = 5 ∧
    demoFull6.st.succ 0 = 1 ∧
    (Tour.restore (Tour.swapFeasible demoFull6 0 1 4 3 false true) none).st.succ ≠
      demoFull6.st.succ ∧
    (∀ x, (Tour.restore (Tour.swapFeasible demoFull6 0 1 4 3 false true) none).st.succ x =
        demoFull6.st.pred x ∧
      (Tour.restore (Tour.swapFeasible demoFull6 0 1 4 3 false true) none).st.pred x =
        demoFull6.st.succ x) := by
  decide

end LK

namespace LK

/-- `f` arranges all `n` nodes in one single cycle: every node is reachable
from every node in fewer than `n` steps.  This is the "succ chain forms one
single cycle of length N" property of a feasible tour. -/
def SingleCycle {n : ℕ} (f : Fin n → Fin n) : Prop :=
  ∀ x y : Fin n, ∃ k < n, f^[k] x = y

instance {n : ℕ} (f : Fin n → Fin n) : Decidable (SingleCycle f) :=
  inferInstanceAs (Decidable (∀ x y : Fin n, ∃ k < n, f^[k] x = y))

/-- `A` is closed under `f` and forms one cycle: every element of `A`
reaches every element of `A` in fewer than `A.card` steps. -/
def CycleOn {n : ℕ} (f : Fin n → Fin n) (A : Finset (Fin n)) : Prop :=
  (∀ x ∈ A, f x ∈ A) ∧ ∀ x ∈ A, ∀ y ∈ A, ∃ k < A.card, f^[k] x = y

/-- The succ graph of `f` consists of exactly two disjoint cycles that
together cover all `n` nodes, each cycle having at least 3 nodes. -/
def TwoCycleDecomp {n : ℕ} (f : Fin n → Fin n) : Prop :=
  ∃ A B : Finset (Fin n), Disjoint A B ∧ A ∪ B = Finset.univ ∧
    3 ≤ A.card ∧ 3 ≤ B.card ∧ CycleOn f A ∧ CycleOn f B

theorem CycleOn.iterate_mem {n : ℕ} {f : Fin n → Fin n} {A : Finset (Fin n)}
    (h : CycleOn f A) : ∀ (m : ℕ), ∀ z ∈ A, f^[m] z ∈ A := by
  intro m
  induction m with
  | zero => simpa using fun z hz => hz
  | succ m ih =>
    intro z hz
    rw [Function.iterate_succ_apply]
    exact ih _ (h.1 z hz)

theorem CycleOn.surjOn {n : ℕ} {f : Fin n → Fin n} {A : Finset (Fin n)}
    (h : CycleOn f A) : ∀ y ∈ A, ∃ x ∈ A, f x = y := by
  intro y hy
  obtain ⟨k, _, hfk⟩ := h.2 (f y) (h.1 y hy) y hy
  cases k with
  | zero => exact ⟨y, hy, by simpa using hfk⟩
  | succ k =>
    refine ⟨f^[k] (f y), h.iterate_mem k _ (h.1 y hy), ?_⟩
    rw [← Function.iterate_succ_apply' f k (f y)]
    exact hfk

theorem CycleOn.injOn {n : ℕ} {f : Fin n → Fin n} {A : Finset (Fin n)}
    (h : CycleOn f A) : Set.InjOn f A := by
  have himg : A.image f = A := by
    apply Finset.Subset.antisymm
    · intro y hy
      obtain ⟨x, hx, hfx⟩ := Finset.mem_image.mp hy
      exact hfx ▸ h.1 x hx
    · intro y hy
      obtain ⟨x, hx, hfx⟩ := h.surjOn y hy
      exact Finset.mem_image.mpr ⟨x, hx, hfx⟩
  exact Finset.card_image_iff.mp (by rw [himg])

/-- A succ graph that decomposes into two disjoint covering cycles is
injective; its contrapositive refutes the decomposition at states where two
nodes share a successor. -/
theorem TwoCycleDecomp.injective {n : ℕ} {f : Fin n → Fin n}
    (h : TwoCycleDecomp f) : Function.Injective f := by
  obtain ⟨A, B, hdisj, hunion, _, _, hA, hB⟩ := h
  intro a b hab
  have hmem : ∀ c : Fin n, c ∈ A ∨ c ∈ B := by
    intro c
    have : c ∈ A ∪ B := hunion ▸ Finset.mem_univ c
    exact Finset.mem_union.mp this
  rcases hmem a with ha | ha <;> rcases hmem b with hb | hb
  · exact hA.injOn ha hb hab
  · exact absurd (Finset.mem_inter.mpr ⟨hA.1 a ha, hab ▸ hB.1 b hb⟩)
      (by simp [Finset.disjoint_left.mp hdisj (hA.1 a ha)])
  · exact absurd (Finset.mem_inter.mpr ⟨hab ▸ hA.1 b hb, hB.1 a ha⟩)
      (by simp [Finset.disjoint_left.mp hdisj (hab ▸ hA.1 b hb)])
  · exact hB.injOn ha hb hab

/-- The tour `0 → 1 → ... → 6 → 0` as built by `Tour.set_nodes` from a
seven-node list. -/
def demoTour7 : TourState 7 :=
  { succ := fun i => i + 1
    pred := fun i => i - 1
    pos := fun i => (i.val : ℤ)
    ids := fun i => i.val }

def demoFull7 : TourFull 7 := { st := demoTour7, stack := [] }

/-- **C3 counterexample.**  The claim quantifies over every quadruple for
which `is_swap_unfeasible` returns true, but the classifier never checks
that `(t1,t2)` and `(t3,t4)` are tour edges.  On the fresh feasible 7-node
tour, `(0,1,3,5)` (where `(3,5)` is not an edge) and `(0,2,4,5)` (where
`(0,2)` is not an edge) both pass the classifier, yet after
`swap_unfeasible` the succ graph is not injective (two nodes share a
successor), hence not a union of two disjoint covering cycles. -/
theorem swap_unfeasible_without_edge_hypotheses_fails :
    SingleCycle demoTour7.succ ∧
    isSwapUnfeasible demoTour7 0 1 3 5 = true ∧
    ¬ TwoCycleDecomp (Tour.swapUnfeasible demoFull7 0 1 3 5 false true).st.succ ∧
    isSwapUnfeasible demoTour7 0 2 4 5 = true ∧
    ¬ TwoCycleDecomp (Tour.swapUnfeasible demoFull7 0 2 4 5 false true).st.succ := by
  refine ⟨by decide, by decide, fun h => ?_, by decide, fun h => ?_⟩
  · have h04 : (0 : Fin 7) = 4 :=
      h.injective (show (Tour.swapUnfeasible demoFull7 0 1 3 5 false true).st.succ 0 =
        (Tour.swapUnfeasible demoFull7 0 1 3 5 false true).st.succ 4 by decide)
    exact absurd h04 (by decide)
  · have h23 : (2 : Fin 7) = 3 :=
      h.injective (show (Tour.swapUnfeasible demoFull7 0 2 4 5 false true).st.succ 2 =
        (Tour.swapUnfeasible demoFull7 0 2 4 5 false true).st.succ 3 by decide)
    exact absurd h23 (by decide)

end LK

namespace LK

/-- The data of a `Node2D` from `models/node.py`: the `id` plus the
immutable cartesian coordinates.  `Node2D.__eq__` compares `x`, `y` and
`id`, so Python equality of `Node2D` objects is structural equality here. -/
structure Node2 where
  id : ℕ
  x : ℚ
  y : ℚ
  deriving DecidableEq

/-- `Node2D.__gt__`: Python tuple comparison `(x, y) > (other.x, other.y)`,
which is lexicographic. -/
def node2Gt (a b : Node2) : Prop :=
  b.x < a.x ∨ (a.x = b.x ∧ b.y < a.y)

instance (a b : Node2) : Decidable (node2Gt a b) := by
  unfold node2Gt; infer_instance

/-- `Edge.__init__` of `models/edge.py` (lines 6-21): order the endpoints by
`Node2D.__gt__` before storing.  `Edge.__eq__` compares `n1` with `n1` and
`n2` with `n2` in order, i.e. structural equality of the stored pair. -/
def mkEdgeO (a b : Node2) : Node2 × Node2 :=
  if node2Gt a b then (a, b) else (b, a)

/-- The `while` loop of `Tour.set_edges` (lines 60-80): walk `succ` from
`nodes[0]`, adding `Edge(curr, curr.succ)` for each node, and the closing
edge once the walk returns to `nodes[0]`.  `data` carries each node's
coordinates; `fuel` bounds the walk (`n` suffices on a feasible tour). -/
def setEdgesWalk {n : ℕ} [NeZero n] (data : Fin n → Node2) (s : TourState n) :
    ℕ → Fin n → Finset (Node2 × Node2) → Finset (Node2 × Node2)
  | 0, _, acc => acc
  | fuel + 1, curr, acc =>
    if s.succ curr = 0 then insert (mkEdgeO (data curr) (data (s.succ curr))) acc
    else setEdgesWalk data s fuel (s.succ curr)
      (insert (mkEdgeO (data curr) (data (s.succ curr))) acc)

/-- `Tour.set_edges`: the set of edges generated from the current `succ`
chain starting at `nodes[0]`. -/
def setEdgesO {n : ℕ} [NeZero n] (data : Fin n → Node2) (s : TourState n) :
    Finset (Node2 × Node2) :=
  setEdgesWalk data s n 0 ∅

/-- Node data for the six-node demo tour: distinct coordinates on a line,
`id = index` as assigned by `set_nodes`. -/
def demoData6 : Fin 6 → Node2 := fun i => { id := i.val, x := (i.val : ℚ), y := 0 }

/-- **C4 counterexample.**  Two failures of the claim as stated.
First, `is_swap_feasible` never checks that `(t1,t2)` is a tour edge: on the
fresh feasible six-node tour the quadruple `(0,2,4,1)` passes the classifier
(node 2 is not adjacent to node 0, so neither orientation branch fires and
the classifier falls through to `True`), yet after `swap_feasible` the succ
chain is not a single cycle (it is not even injective: nodes 1 and 5 share
the successor 0).  Second, `swap_feasible` never updates `self.edges`: after
the genuinely valid feasible swap `(0,1,3,2)` the tour's edge set is still
the construction-time set, which differs from the canonical succ-induced
edge set of the swapped tour. -/
theorem swap_feasible_claim_as_stated_fails :
    SingleCycle demoTour6.succ ∧
    -- classifier passes a non-edge quadruple and the result is not one cycle
    isSwapFeasible demoTour6 0 2 4 1 = true ∧
    ¬ SingleCycle (Tour.swapFeasible demoFull6 0 2 4 1 false true).st.succ ∧
    -- a valid feasible swap leaves the edge set stale
    isSwapFeasible demoTour6 0 1 3 2 = true ∧
    (Tour.swapFeasible demoFull6 0 1 3 2 false true).st.succ ≠ demoTour6.succ ∧
    setEdgesO demoData6 demoTour6 ≠
      Finset.image (fun i =>
        mkEdgeO (demoData6 i)
          (demoData6 ((Tour.swapFeasible demoFull6 0 1 3 2 false true).st.succ i)))
        Finset.univ := by
  refine ⟨by decide, by decide, by decide, by decide, by decide, ?_⟩
  intro h
  have h1 : mkEdgeO (demoData6 0) (demoData6 1) ∈ setEdgesO demoData6 demoTour6 := by decide
  rw [h] at h1
  have h2 : ¬ mkEdgeO (demoData6 0) (demoData6 1) ∈
      Finset.image (fun i =>
        mkEdgeO (demoData6 i)
          (demoData6 ((Tour.swapFeasible demoFull6 0 1 3 2 false true).st.succ i)))
        Finset.univ := by decide
  exact h2 h1

end LK

namespace LK

variable {n : ℕ}

/-- A labelling of a cyclic `succ`: a bijection `g` of `ZMod n` onto the
nodes along which `succ` acts as `+1`.  A feasible tour is exactly a `succ`
admitting such a labelling (see `SingleCycle.exists_labelling`). -/
def IsLabelling (f : Fin n → Fin n) (g : ZMod n → Fin n) : Prop :=
  Function.Bijective g ∧ ∀ k : ZMod n, f (g k) = g (k + 1)

theorem IsLabelling.iterate [NeZero n] {f : Fin n → Fin n} {g : ZMod n → Fin n}
    (h : IsLabelling f g) (m : ℕ) (k : ZMod n) : f^[m] (g k) = g (k + m) := by
  induction m generalizing k with
  | zero => simp
  | succ m ih =>
    rw [Function.iterate_succ_apply, h.2 k, ih (k + 1)]
    congr 1
    push_cast
    ring

theorem IsLabelling.singleCycle [NeZero n] {f : Fin n → Fin n} {g : ZMod n → Fin n}
    (h : IsLabelling f g) : SingleCycle f := by
  intro x y
  obtain ⟨a, rfl⟩ := h.1.2 x
  obtain ⟨b, rfl⟩ := h.1.2 y
  refine ⟨(b - a).val, ZMod.val_lt _, ?_⟩
  rw [h.iterate]
  congr 1
  rw [ZMod.natCast_val, ZMod.cast_id]
  ring

theorem iterate_mod_period {α : Type} (f : α → α) (x : α) (p : ℕ)
    (hp : f^[p] x = x) (m : ℕ) : f^[m] x = f^[m % p] x := by
  conv_lhs => rw [← Nat.mod_add_div m p, Function.iterate_add_apply,
    Function.iterate_mul, Function.iterate_fixed hp]

/-- A single cycle over all of `Fin n` is surjective, hence bijective. -/
theorem SingleCycle.bijective [NeZero n] {f : Fin n → Fin n}
    (h : SingleCycle f) : Function.Bijective f := by
  have hfsurj : Function.Surjective f := by
    intro y
    obtain ⟨k, _, hfk⟩ := h (f y) y
    cases k with
    | zero => exact ⟨y, by simpa using hfk⟩
    | succ k =>
      exact ⟨f^[k] (f y), by rw [← Function.iterate_succ_apply' f k (f y)]; exact hfk⟩
  exact ⟨Finite.injective_iff_surjective.mpr hfsurj, hfsurj⟩

/-- From a feasible tour extract a labelling: `g k = succ^[k] nodes[0]`. -/
theorem SingleCycle.exists_labelling [NeZero n] {f : Fin n → Fin n}
    (h : SingleCycle f) : ∃ g : ZMod n → Fin n, IsLabelling f g := by
  refine ⟨fun k => f^[k.val] 0, ?_, ?_⟩
  · have hsurj : Function.Surjective (fun k : ZMod n => f^[k.val] 0) := by
      intro y
      obtain ⟨k, hk, hfk⟩ := h 0 y
      exact ⟨(k : ZMod n), by simpa [ZMod.val_natCast_of_lt hk] using hfk⟩
    exact (Fintype.bijective_iff_surjective_and_card _).mpr
      ⟨hsurj, by simp [ZMod.card]⟩
  · -- first establish the period f^[n] 0 = 0
    have hper : f^[n] (0 : Fin n) = 0 := by
      obtain ⟨k, hk, hfk⟩ := h 0 (f^[n] 0)
      have hcancel : f^[k] ((0 : Fin n)) = f^[k] (f^[n - k] 0) := by
        rw [← Function.iterate_add_apply, Nat.add_sub_cancel' (Nat.le_of_lt hk)]
        exact hfk
      have hkz : (0 : Fin n) = f^[n - k] 0 :=
        (h.bijective.1.iterate k) hcancel
      rcases Nat.eq_zero_or_pos k with rfl | hkpos
      · simpa using hkz.symm
      · -- a shorter period p = n - k < n contradicts reachability of all n nodes
        exfalso
        set p := n - k with hp
        have hppos : 0 < p := by omega
        have hplt : p < n := by omega
        have hfix : f^[p] (0 : Fin n) = 0 := hkz.symm
        have hsub : (Finset.univ : Finset (Fin n)) ⊆
            (Finset.range p).image (fun j => f^[j] 0) := by
          intro y _
          obtain ⟨m, _, hm⟩ := h 0 y
          refine Finset.mem_image.mpr ⟨m % p, Finset.mem_range.mpr (Nat.mod_lt _ hppos), ?_⟩
          rw [← iterate_mod_period f 0 p hfix m]
          exact hm
        have hcard := Finset.card_le_card hsub
        have : n ≤ p := by
          calc n = (Finset.univ : Finset (Fin n)).card := by simp
            _ ≤ _ := hcard
            _ ≤ p := (Finset.card_image_le).trans (by simp)
        omega
    intro k
    simp only
    rw [← Function.iterate_succ_apply' f k.val 0,
      iterate_mod_period f 0 n hper (k.val + 1), iterate_mod_period f 0 n hper (k + 1).val]
    congr 1
    have hv : (k + 1).val = (k.val + (1 : ZMod n).val) % n := ZMod.val_add k 1
    have h1 : (1 : ZMod n).val = 1 % n := ZMod.val_one_eq_one_mod n
    rw [Nat.mod_eq_of_lt (ZMod.val_lt (k + 1)), hv, h1]
    rcases Nat.lt_or_ge 1 n with hgt | hle
    · rw [Nat.mod_eq_of_lt hgt]
    · have hn1 : n = 1 := Nat.le_antisymm hle (Nat.pos_of_ne_zero (NeZero.ne n))
      subst hn1
      simp

end LK

namespace LK

/-- The node reached `j+1` steps after `g a` along the labelling `g`. -/
def arcMap (g : ZMod n → Fin n) (a : ZMod n) : ℕ → Fin n := fun j => g (a + 1 + j)

/-- The arc of `d` nodes strictly after `g a` along the labelling `g`. -/
def arcSet (g : ZMod n → Fin n) (a : ZMod n) (d : ℕ) : Finset (Fin n) :=
  (Finset.range d).image (arcMap g a)

theorem IsLabelling.comp_swap_step [NeZero n] {f : Fin n → Fin n}
    {g : ZMod n → Fin n} (hL : IsLabelling f g) (a b : ZMod n) {c : ZMod n}
    (h1 : c ≠ a) (h2 : c ≠ b) :
    (f ∘ Equiv.swap (g a) (g b)) (g c) = g (c + 1) := by
  have hga : g c ≠ g a := fun h => h1 (hL.1.1 h)
  have hgb : g c ≠ g b := fun h => h2 (hL.1.1 h)
  simp only [Function.comp_apply, Equiv.swap_apply_of_ne_of_ne hga hgb, hL.2]

theorem IsLabelling.comp_swap_step_left [NeZero n] {f : Fin n → Fin n}
    {g : ZMod n → Fin n} (hL : IsLabelling f g) (a b : ZMod n) :
    (f ∘ Equiv.swap (g a) (g b)) (g a) = g (b + 1) := by
  simp only [Function.comp_apply, Equiv.swap_apply_left, hL.2]

theorem IsLabelling.comp_swap_step_right [NeZero n] {f : Fin n → Fin n}
    {g : ZMod n → Fin n} (hL : IsLabelling f g) (a b : ZMod n) :
    (f ∘ Equiv.swap (g a) (g b)) (g b) = g (a + 1) := by
  simp only [Function.comp_apply, Equiv.swap_apply_right, hL.2]

theorem IsLabelling.arcMap_step [NeZero n] {f : Fin n → Fin n}
    {g : ZMod n → Fin n} (hL : IsLabelling f g) (a b : ZMod n) {j : ℕ}
    (hj : j + 1 < (b - a).val) :
    (f ∘ Equiv.swap (g a) (g b)) (arcMap g a j) = arcMap g a (j + 1) := by
  have hjn : j + 1 < n := lt_trans hj (ZMod.val_lt _)
  have h1 : a + 1 + (j : ZMod n) ≠ a := by
    intro h
    have h0 : ((j + 1 : ℕ) : ZMod n) = 0 := by
      have : (1 : ZMod n) + (j : ZMod n) = 0 := by linear_combination h
      push_cast
      linear_combination this
    rw [ZMod.natCast_zmod_eq_zero_iff_dvd] at h0
    exact absurd (Nat.le_of_dvd (Nat.succ_pos j) h0) (by omega)
  have h2 : a + 1 + (j : ZMod n) ≠ b := by
    intro h
    have hd : ((j + 1 : ℕ) : ZMod n) = b - a := by
      push_cast
      linear_combination h
    have : j + 1 = (b - a).val := by
      rw [← ZMod.val_natCast_of_lt hjn, hd]
    omega
  rw [show arcMap g a j = g (a + 1 + j) from rfl, hL.comp_swap_step a b h1 h2]
  unfold arcMap
  congr 1
  push_cast
  ring

theorem IsLabelling.arcMap_wrap [NeZero n] {f : Fin n → Fin n}
    {g : ZMod n → Fin n} (hL : IsLabelling f g) (a b : ZMod n) (hab : a ≠ b) :
    (f ∘ Equiv.swap (g a) (g b)) (arcMap g a ((b - a).val - 1)) = arcMap g a 0 := by
  have hd : 0 < (b - a).val := by
    rcases Nat.eq_zero_or_pos (b - a).val with h | h
    · exact absurd (sub_eq_zero.mp (ZMod.val_eq_zero _ |>.mp h)) (fun h' => hab h'.symm)
    · exact h
  have hlast : arcMap g a ((b - a).val - 1) = g b := by
    unfold arcMap
    congr 1
    have hcast : (((b - a).val - 1 : ℕ) : ZMod n) + 1 = ((b - a).val : ℕ) := by
      have h1 : (b - a).val = ((b - a).val - 1) + 1 := by omega
      conv_rhs => rw [h1]
      push_cast
      ring
    calc a + 1 + (((b - a).val - 1 : ℕ) : ZMod n)
        = a + ((((b - a).val - 1 : ℕ) : ZMod n) + 1) := by ring
      _ = a + (((b - a).val : ℕ) : ZMod n) := by rw [hcast]
      _ = a + (b - a) := by rw [ZMod.natCast_val, ZMod.cast_id]
      _ = b := by ring
  rw [hlast, hL.comp_swap_step_right a b]
  unfold arcMap
  congr 1
  push_cast
  ring

end LK

namespace LK

theorem zmod_val_sub_pos [NeZero n] {a b : ZMod n} (hab : a ≠ b) :
    0 < (b - a).val := by
  rcases Nat.eq_zero_or_pos (b - a).val with h | h
  · exact absurd (sub_eq_zero.mp (ZMod.val_eq_zero _ |>.mp h)) (fun h' => hab h'.symm)
  · exact h

theorem zmod_val_sub_add_val_sub [NeZero n] {a b : ZMod n} (hab : a ≠ b) :
    (b - a).val + (a - b).val = n := by
  have h1 : a - b = -(b - a) := by ring
  rw [h1, ZMod.neg_val]
  split_ifs with h
  · exact absurd (sub_eq_zero.mp h) (fun h' => hab h'.symm)
  · have := ZMod.val_lt (b - a)
    have := zmod_val_sub_pos hab
    omega

theorem IsLabelling.arcMap_iterate [NeZero n] {f : Fin n → Fin n}
    {g : ZMod n → Fin n} (hL : IsLabelling f g) (a b : ZMod n) (hab : a ≠ b) :
    ∀ (m j : ℕ), j < (b - a).val →
      (f ∘ Equiv.swap (g a) (g b))^[m] (arcMap g a j) =
        arcMap g a ((j + m) % (b - a).val) := by
  have hd : 0 < (b - a).val := zmod_val_sub_pos hab
  intro m
  induction m with
  | zero => intro j hj; simp [Nat.mod_eq_of_lt hj]
  | succ m ih =>
    intro j hj
    rw [Function.iterate_succ_apply]
    rcases Nat.lt_or_ge (j + 1) (b - a).val with hlt | hge
    · rw [hL.arcMap_step a b hlt, ih (j + 1) hlt,
        show j + 1 + m = j + (m + 1) from by omega]
    · have hj1 : j = (b - a).val - 1 := by omega
      subst hj1
      rw [hL.arcMap_wrap a b hab, ih 0 hd, Nat.zero_add,
        show (b - a).val - 1 + (m + 1) = (b - a).val + m from by omega, Nat.add_mod_left]

theorem IsLabelling.cycleOn_arc [NeZero n] {f : Fin n → Fin n}
    {g : ZMod n → Fin n} (hL : IsLabelling f g) (a b : ZMod n) (hab : a ≠ b) :
    CycleOn (f ∘ Equiv.swap (g a) (g b)) (arcSet g a (b - a).val) ∧
    (arcSet g a (b - a).val).card = (b - a).val ∧
    (∀ c : ZMod n, g c ∈ arcSet g a (b - a).val ↔ (c - (a + 1)).val < (b - a).val) := by
  have hd : 0 < (b - a).val := zmod_val_sub_pos hab
  have hdn : (b - a).val < n := ZMod.val_lt _
  have hinj : Set.InjOn (arcMap g a) (Finset.range (b - a).val) := by
    intro i hi j hj hij
    have hi' : i < (b - a).val := Finset.mem_coe.mp hi |> Finset.mem_range.mp
    have hj' : j < (b - a).val := Finset.mem_coe.mp hj |> Finset.mem_range.mp
    have h1 : a + 1 + (i : ZMod n) = a + 1 + (j : ZMod n) := hL.1.1 hij
    have h2 : (i : ZMod n) = (j : ZMod n) := by linear_combination h1
    have h3 := congrArg ZMod.val h2
    rwa [ZMod.val_natCast_of_lt (by omega), ZMod.val_natCast_of_lt (by omega)] at h3
  have hcard : (arcSet g a (b - a).val).card = (b - a).val := by
    rw [arcSet, Finset.card_image_of_injOn hinj, Finset.card_range]
  have hmem : ∀ c : ZMod n,
      g c ∈ arcSet g a (b - a).val ↔ (c - (a + 1)).val < (b - a).val := by
    intro c
    constructor
    · intro h
      obtain ⟨j, hj, hψ⟩ := Finset.mem_image.mp h
      have hj' : j < (b - a).val := Finset.mem_range.mp hj
      have h1 : a + 1 + (j : ZMod n) = c := hL.1.1 hψ
      have h2 : c - (a + 1) = (j : ZMod n) := by linear_combination h1.symm
      rw [h2, ZMod.val_natCast_of_lt (by omega)]
      exact hj'
    · intro h
      refine Finset.mem_image.mpr ⟨(c - (a + 1)).val, Finset.mem_range.mpr h, ?_⟩
      unfold arcMap
      congr 1
      rw [ZMod.natCast_val, ZMod.cast_id]
      ring
  refine ⟨⟨?_, ?_⟩, hcard, hmem⟩
  · intro x hx
    obtain ⟨j, hj, rfl⟩ := Finset.mem_image.mp hx
    have hj' : j < (b - a).val := Finset.mem_range.mp hj
    have h1 := hL.arcMap_iterate a b hab 1 j hj'
    rw [Function.iterate_one] at h1
    rw [h1]
    exact Finset.mem_image.mpr ⟨(j + 1) % (b - a).val,
      Finset.mem_range.mpr (Nat.mod_lt _ hd), rfl⟩
  · intro x hx y hy
    obtain ⟨i, hi, rfl⟩ := Finset.mem_image.mp hx
    obtain ⟨j, hj, rfl⟩ := Finset.mem_image.mp hy
    have hi' : i < (b - a).val := Finset.mem_range.mp hi
    have hj' : j < (b - a).val := Finset.mem_range.mp hj
    refine ⟨(j + (b - a).val - i) % (b - a).val, ?_, ?_⟩
    · rw [hcard]
      exact Nat.mod_lt _ hd
    · rw [hL.arcMap_iterate a b hab _ i hi']
      congr 1
      have hc : (i + (j + (b - a).val - i) % (b - a).val) % (b - a).val =
          (i + (j + (b - a).val - i)) % (b - a).val :=
        Nat.ModEq.add_left i (Nat.mod_modEq _ _)
      rw [hc, show i + (j + (b - a).val - i) = j + (b - a).val by omega,
        Nat.add_mod_right, Nat.mod_eq_of_lt hj']

theorem IsLabelling.twoCycleDecomp_comp_swap [NeZero n] {f : Fin n → Fin n}
    {g : ZMod n → Fin n} (hL : IsLabelling f g) (a b : ZMod n) (hab : a ≠ b)
    (h3 : 3 ≤ (b - a).val) (h3' : 3 ≤ (a - b).val) :
    TwoCycleDecomp (f ∘ Equiv.swap (g a) (g b)) := by
  obtain ⟨hcycA, hcardA, hmemA⟩ := hL.cycleOn_arc a b hab
  obtain ⟨hcycB, hcardB, hmemB⟩ := hL.cycleOn_arc b a hab.symm
  rw [Equiv.swap_comm (g b) (g a)] at hcycB
  have hdd : (b - a).val + (a - b).val = n := zmod_val_sub_add_val_sub hab
  have hdisj : Disjoint (arcSet g a (b - a).val) (arcSet g b (a - b).val) := by
    rw [Finset.disjoint_left]
    intro x hxA hxB
    obtain ⟨c, rfl⟩ := hL.1.2 x
    have hA := (hmemA c).mp hxA
    have hB := (hmemB c).mp hxB
    have hrel : c - (b + 1) = (c - (a + 1)) + (a - b) := by ring
    have hval : (c - (b + 1)).val = ((c - (a + 1)).val + (a - b).val) % n := by
      rw [hrel, ZMod.val_add]
    have hlt : (c - (a + 1)).val + (a - b).val < n := by omega
    rw [Nat.mod_eq_of_lt hlt] at hval
    omega
  refine ⟨arcSet g a (b - a).val, arcSet g b (a - b).val, hdisj, ?_, ?_, ?_, hcycA, hcycB⟩
  · apply Finset.eq_univ_of_card
    rw [Finset.card_union_of_disjoint hdisj, hcardA, hcardB, hdd, Fintype.card_fin]
  · rw [hcardA]; exact h3
  · rw [hcardB]; exact h3'

end LK

namespace LK

theorem isSwapUnfeasible_true_elim {n : ℕ} {s : TourState n} {t1 t2 t3 t4 : Fin n}
    (h : isSwapUnfeasible s t1 t2 t3 t4 = true) :
    (t1 ≠ t2 ∧ t1 ≠ t3 ∧ t1 ≠ t4 ∧ t2 ≠ t3 ∧ t2 ≠ t4 ∧ t3 ≠ t4) ∧
    (s.succ t1 = t2 → t4 ≠ s.pred t3) ∧
    (s.succ t1 ≠ t2 → s.pred t1 = t2 → t4 ≠ s.succ t3) ∧
    ¬(s.pred t2 = t3 ∨ s.succ t2 = t3 ∨ s.pred t1 = t4 ∨ s.succ t1 = t4) := by
  unfold isSwapUnfeasible at h
  by_cases hd : t1 ≠ t2 ∧ t1 ≠ t3 ∧ t1 ≠ t4 ∧ t2 ≠ t3 ∧ t2 ≠ t4 ∧ t3 ≠ t4
  · rw [if_neg (not_not_intro hd)] at h
    by_cases h1 : s.succ t1 = t2
    · rw [if_pos h1] at h
      by_cases h4 : t4 = s.pred t3
      · rw [if_pos h4] at h
        exact absurd h (by simp)
      · rw [if_neg h4] at h
        by_cases hadj : s.pred t2 = t3 ∨ s.succ t2 = t3 ∨ s.pred t1 = t4 ∨ s.succ t1 = t4
        · rw [if_pos hadj] at h
          exact absurd h (by simp)
        · exact ⟨hd, fun _ => h4, fun hc => absurd h1 hc, hadj⟩
    · rw [if_neg h1] at h
      by_cases h2 : s.pred t1 = t2
      · rw [if_pos h2] at h
        by_cases h4 : t4 = s.succ t3
        · rw [if_pos h4] at h
          exact absurd h (by simp)
        · rw [if_neg h4] at h
          by_cases hadj : s.pred t2 = t3 ∨ s.succ t2 = t3 ∨ s.pred t1 = t4 ∨ s.succ t1 = t4
          · rw [if_pos hadj] at h
            exact absurd h (by simp)
          · exact ⟨hd, fun hc => absurd hc h1, fun _ _ => h4, hadj⟩
      · rw [if_neg h2] at h
        by_cases hadj : s.pred t2 = t3 ∨ s.succ t2 = t3 ∨ s.pred t1 = t4 ∨ s.succ t1 = t4
        · rw [if_pos hadj] at h
          exact absurd h (by simp)
        · exact ⟨hd, fun hc => absurd hc h1, fun _ hc => absurd hc h2, hadj⟩
  · rw [if_pos hd] at h
    exact absurd h (by simp)

end LK

namespace LK

theorem update_update_comp_swap {α : Type} [DecidableEq α] (f : α → α) (x y : α)
    (hxy : x ≠ y) :
    Function.update (Function.update f y (f x)) x (f y) = f ∘ Equiv.swap x y := by
  funext z
  by_cases hz1 : z = x
  · subst hz1
    rw [Function.update_same]
    simp [Equiv.swap_apply_left]
  · by_cases hz2 : z = y
    · subst hz2
      rw [Function.update_noteq (fun hh => hz1 hh), Function.update_same]
      simp [Equiv.swap_apply_right]
    · rw [Function.update_noteq hz1, Function.update_noteq hz2]
      simp [Equiv.swap_apply_of_ne_of_ne hz1 hz2]

/-- The arc from `g a` to `g b` has at least 3 nodes as soon as `g b` is
neither `g a` nor one of the next two nodes after `g a` along the cycle. -/
theorem IsLabelling.val_sub_ge_three [NeZero n] {f : Fin n → Fin n}
    {g : ZMod n → Fin n} (hL : IsLabelling f g) {a b : ZMod n}
    (h0 : g a ≠ g b) (h1 : g b ≠ f (g a)) (h2 : g b ≠ f (f (g a))) :
    3 ≤ (b - a).val := by
  by_contra hc
  push_neg at hc
  have hv : (b - a).val = 0 ∨ (b - a).val = 1 ∨ (b - a).val = 2 := by omega
  rcases hv with hv | hv | hv
  · have hba : b = a := by
      have hz : b - a = 0 := (ZMod.val_eq_zero _).mp hv
      linear_combination hz
    exact h0 (by rw [hba])
  · have hb : b = a + 1 := by
      have hz : b - a = ((1 : ℕ) : ZMod n) := by
        rw [← hv, ZMod.natCast_val, ZMod.cast_id]
      push_cast at hz
      linear_combination hz
    exact h1 (by rw [hb, ← hL.2 a])
  · have hb : b = a + 2 := by
      have hz : b - a = ((2 : ℕ) : ZMod n) := by
        rw [← hv, ZMod.natCast_val, ZMod.cast_id]
      push_cast at hz
      linear_combination hz
    have hgb : g (a + 2) = f (f (g a)) := by
      calc g (a + 2) = g (a + 1 + 1) := by ring_nf
        _ = f (g (a + 1)) := (hL.2 (a + 1)).symm
        _ = f (f (g a)) := by rw [hL.2 a]
    exact h2 (by rw [hb, hgb])

/-- **C3 (amended).**  For every feasible tour (one `succ` cycle over all
`N` nodes, with `pred` the inverse of `succ`) and every quadruple
`(t1,t2,t3,t4)` such that `(t1,t2)` and `(t3,t4)` are edges of the tour and
`is_swap_unfeasible` returns true, after `swap_unfeasible(t1,t2,t3,t4)` the
succ graph consists of exactly two disjoint cycles that together cover all
`N` nodes, each cycle having at least 3 nodes.  (The edge hypotheses are the
amendment: the classifier itself does not check them, and the claim as
stated fails without them, see
`swap_unfeasible_without_edge_hypotheses_fails`.) -/
theorem swap_unfeasible_two_cycles {n : ℕ} [NeZero n] (t : TourFull n)
    (t1 t2 t3 t4 : Fin n)
    (hfeas : SingleCycle t.st.succ)
    (hpp : ∀ x, t.st.pred (t.st.succ x) = x)
    (hedge1 : t2 = t.st.succ t1 ∨ t2 = t.st.pred t1)
    (hedge2 : t4 = t.st.succ t3 ∨ t4 = t.st.pred t3)
    (hcls : isSwapUnfeasible t.st t1 t2 t3 t4 = true) :
    TwoCycleDecomp (Tour.swapUnfeasible t t1 t2 t3 t4 false true).st.succ := by
  obtain ⟨⟨hd12, hd13, hd14, hd23, hd24, hd34⟩, hor1, hor2, hadj⟩ :=
    isSwapUnfeasible_true_elim hcls
  push_neg at hadj
  obtain ⟨hadj1, hadj2, hadj3, hadj4⟩ := hadj
  have hbij := hfeas.bijective
  have hsp : ∀ x, t.st.succ (t.st.pred x) = x := by
    intro y
    obtain ⟨x, rfl⟩ := hbij.2 y
    rw [hpp]
  obtain ⟨g, hL⟩ := hfeas.exists_labelling
  by_cases htt : t.st.succ t1 = t2
  · -- role-swapped branch of swap_unfeasible
    have ht4 : t4 = t.st.succ t3 := by
      rcases hedge2 with h | h
      · exact h
      · exact absurd h (hor1 htt)
    have hst : (Tour.swapUnfeasible t t1 t2 t3 t4 false true).st.succ =
        Function.update (Function.update t.st.succ t3 t2) t1 t4 := by
      simp only [Tour.swapUnfeasible]
      rw [if_pos htt]
      rfl
    have hcomp : (Tour.swapUnfeasible t t1 t2 t3 t4 false true).st.succ =
        t.st.succ ∘ Equiv.swap t1 t3 := by
      rw [hst, ← htt, ht4]
      exact update_update_comp_swap t.st.succ t1 t3 hd13
    rw [hcomp]
    obtain ⟨a, ha⟩ := hL.1.2 t1
    obtain ⟨b, hb⟩ := hL.1.2 t3
    rw [← ha, ← hb]
    refine hL.twoCycleDecomp_comp_swap a b ?_ ?_ ?_
    · intro hc
      exact hd13 (by rw [← ha, ← hb, hc])
    · -- the t2-t3 arc: t3 differs from t1, succ t1 = t2 and succ t2
      refine hL.val_sub_ge_three ?_ ?_ ?_
      · rw [ha, hb]; exact hd13
      · rw [ha, hb, htt]; exact hd23.symm
      · rw [ha, hb, htt]; exact fun hc => hadj2 hc.symm
    · -- the t4-t1 arc: t1 differs from t3, succ t3 = t4 and succ t4
      refine hL.val_sub_ge_three ?_ ?_ ?_
      · rw [ha, hb]; exact hd13.symm
      · rw [ha, hb, ← ht4]; exact hd14
      · rw [ha, hb, ← ht4]
        intro hc
        apply hadj3
        rw [hc, hpp]
  · -- plain branch of swap_unfeasible
    have ht2 : t2 = t.st.pred t1 := by
      rcases hedge1 with h | h
      · exact absurd h.symm htt
      · exact h
    have ht4 : t4 = t.st.pred t3 := by
      rcases hedge2 with h | h
      · exact absurd h (hor2 htt (ht2 ▸ rfl))
      · exact h
    have hs2 : t.st.succ t2 = t1 := by rw [ht2, hsp]
    have hs4 : t.st.succ t4 = t3 := by rw [ht4, hsp]
    have hst : (Tour.swapUnfeasible t t1 t2 t3 t4 false true).st.succ =
        Function.update (Function.update t.st.succ t2 t3) t4 t1 := by
      simp only [Tour.swapUnfeasible]
      rw [if_neg htt]
      rfl
    have hcomp : (Tour.swapUnfeasible t t1 t2 t3 t4 false true).st.succ =
        t.st.succ ∘ Equiv.swap t4 t2 := by
      rw [hst, ← hs2, ← hs4]
      exact update_update_comp_swap t.st.succ t4 t2 (fun h => hd24 h.symm)
    rw [hcomp]
    obtain ⟨a, ha⟩ := hL.1.2 t4
    obtain ⟨b, hb⟩ := hL.1.2 t2
    rw [← ha, ← hb]
    refine hL.twoCycleDecomp_comp_swap a b ?_ ?_ ?_
    · intro hc
      exact hd24 (((hb.symm).trans (congrArg g hc.symm)).trans ha)
    · -- the arc from t4: succ t4 = t3, succ t3 = ?
      refine hL.val_sub_ge_three ?_ ?_ ?_
      · rw [ha, hb]; exact fun h => hd24 h.symm
      · rw [ha, hb, hs4]; exact hd23
      · rw [ha, hb, hs4]
        intro hc
        apply hadj1
        rw [hc, hpp]
    · -- the arc from t2: succ t2 = t1, succ t1 = ?
      refine hL.val_sub_ge_three ?_ ?_ ?_
      · rw [ha, hb]; exact hd24
      · rw [ha, hb, hs2]; exact fun h => hd14 h.symm
      · rw [ha, hb, hs2]; exact fun h => hadj4 h.symm

end LK

namespace LK

theorem revSegment_stop {n : ℕ} (isSub : Bool) (k : ℕ) (x : Fin n) (p : ℤ)
    (s : TourState n) : Tour.revSegment k x x isSub p s = s := by
  cases k with
  | zero => rfl
  | succ k => exact if_pos rfl

/-- Characterization of the reversal loop of `swap_feasible` along a
trajectory `v 0, v 1, ..., v (m+1)` of pairwise distinct nodes following the
original `succ` chain: the loop flips `succ` to `pred` on `v 0 .. v m` and
leaves `succ` unchanged elsewhere. -/
theorem revSegment_succ_spec {n : ℕ} (isSub : Bool) :
    ∀ (m : ℕ) (v : ℕ → Fin n) (s : TourState n) (p : ℤ) (fuel : ℕ),
      (∀ j, j ≤ m → s.succ (v j) = v (j + 1)) →
      (∀ i j, i ≤ m + 1 → j ≤ m + 1 → v i = v j → i = j) →
      m + 1 ≤ fuel →
      (∀ j, j ≤ m →
        (Tour.revSegment fuel (v 0) (v (m + 1)) isSub p s).succ (v j) = s.pred (v j)) ∧
      (∀ x, (∀ j, j ≤ m → x ≠ v j) →
        (Tour.revSegment fuel (v 0) (v (m + 1)) isSub p s).succ x = s.succ x) := by
  intro m
  induction m with
  | zero =>
    intro v s p fuel hstep hinj hfuel
    obtain ⟨f, rfl⟩ : ∃ f, fuel = f + 1 := ⟨fuel - 1, by omega⟩
    have hne : v 0 ≠ v 1 := fun h => absurd (hinj 0 1 (by omega) (by omega) h) (by omega)
    rw [Tour.revSegment, if_neg hne, hstep 0 (le_refl 0)]
    have hs2 : ∀ s1 : TourState n, ∀ z : Fin n → ℤ,
        (if isSub then s1 else { s1 with pos := z }).succ = s1.succ := by
      intro s1 z
      cases isSub <;> rfl
    constructor
    · intro j hj
      interval_cases j
      rw [revSegment_stop]
      cases isSub <;>
        simp [Function.update_same]
    · intro x hx
      rw [revSegment_stop]
      cases isSub <;>
        simp [Function.update_noteq (hx 0 (le_refl 0))]
  | succ m ih =>
    intro v s p fuel hstep hinj hfuel
    obtain ⟨f, rfl⟩ : ∃ f, fuel = f + 1 := ⟨fuel - 1, by omega⟩
    have hne : v 0 ≠ v (m + 1 + 1) :=
      fun h => absurd (hinj 0 (m + 1 + 1) (by omega) (by omega) h) (by omega)
    set s1 : TourState n :=
      { s with succ := Function.update s.succ (v 0) (s.pred (v 0))
               pred := Function.update s.pred (v 0) (v 1) } with hs1
    set s2 := if isSub then s1 else { s1 with pos := Function.update s1.pos (v 0) p }
      with hs2def
    have hs2succ : s2.succ = Function.update s.succ (v 0) (s.pred (v 0)) := by
      rw [hs2def]
      cases isSub <;> rfl
    have hs2pred : s2.pred = Function.update s.pred (v 0) (v 1) := by
      rw [hs2def]
      cases isSub <;> rfl
    have hunfold : Tour.revSegment (f + 1) (v 0) (v (m + 1 + 1)) isSub p s =
        Tour.revSegment f (v 1) (v (m + 1 + 1)) isSub (if isSub then p else p - 1) s2 := by
      rw [Tour.revSegment, if_neg hne, hstep 0 (by omega)]
    have hvne : ∀ j, j ≤ m + 1 → v (j + 1) ≠ v 0 := by
      intro j hj h
      exact absurd (hinj (j + 1) 0 (by omega) (by omega) h) (by omega)
    have hstepB : ∀ j, j ≤ m → s2.succ (v (j + 1)) = v (j + 1 + 1) := by
      intro j hj
      rw [hs2succ, Function.update_noteq (hvne j (by omega)), hstep (j + 1) (by omega)]
    have hinjB : ∀ i j, i ≤ m + 1 → j ≤ m + 1 → v (i + 1) = v (j + 1) → i = j := by
      intro i j hi hj h
      have := hinj (i + 1) (j + 1) (by omega) (by omega) h
      omega
    obtain ⟨ih1, ih2⟩ :=
      ih (fun j => v (j + 1)) s2 (if isSub then p else p - 1) f hstepB hinjB (by omega)
    have ih1B : ∀ j, j ≤ m →
        (Tour.revSegment f (v 1) (v (m + 1 + 1)) isSub
          (if isSub then p else p - 1) s2).succ (v (j + 1)) = s2.pred (v (j + 1)) := ih1
    have ih2B : ∀ x, (∀ j, j ≤ m → x ≠ v (j + 1)) →
        (Tour.revSegment f (v 1) (v (m + 1 + 1)) isSub
          (if isSub then p else p - 1) s2).succ x = s2.succ x := ih2
    constructor
    · intro j hj
      rw [hunfold]
      cases j with
      | zero =>
        rw [ih2B (v 0)
          (fun j hj h => absurd (hinj 0 (j + 1) (by omega) (by omega) h) (by omega)),
          hs2succ, Function.update_same]
      | succ j =>
        rw [ih1B j (by omega), hs2pred, Function.update_noteq (hvne j (by omega))]
    · intro x hx
      rw [hunfold, ih2B x (fun j hj => hx (j + 1) (by omega)), hs2succ,
        Function.update_noteq (hx 0 (by omega))]

end LK

namespace LK

theorem zmod_natCast_val_self [NeZero n] (x : ZMod n) :
    ((x.val : ℕ) : ZMod n) = x :=
  (ZMod.natCast_val x).trans (ZMod.cast_id n x)

/-- Core of `swap_feasible` in normalized position (`T2 = succ T1`,
`T4 = pred T3`): reversing the `succ` segment from `T3` to `T1` and rewiring
`T3.succ = T2`, `T4.succ = T1` yields again a single cycle over all `N`
nodes.  `isSub`, `p` and the `pos` state are arbitrary: the `succ` result
does not depend on them. -/
theorem feasCore_singleCycle {n : ℕ} [NeZero n] {s : TourState n}
    {g : ZMod n → Fin n} (hL : IsLabelling s.succ g)
    (hpp : ∀ x, s.pred (s.succ x) = x)
    (T1 T2 T3 T4 : Fin n)
    (hsucc : s.succ T1 = T2) (hpred : T4 = s.pred T3)
    (h13 : T1 ≠ T3) (h23 : T2 ≠ T3)
    (isSub : Bool) (p : ℤ) (fuel : ℕ) (hfuel : n ≤ fuel) :
    SingleCycle (Function.update (Function.update
      (Tour.revSegment fuel T3 (s.succ T1) isSub p s).succ T3 T2) T4 T1) := by
  have hbij := hL.1
  obtain ⟨α, hα⟩ := hbij.2 T1
  obtain ⟨γ, hγ⟩ := hbij.2 T3
  set d := (α - γ).val with hd
  have hn2 : 2 ≤ n := by
    have hcard : 1 < Fintype.card (Fin n) :=
      Fintype.one_lt_card_iff_nontrivial.mpr ⟨⟨T1, T3, h13⟩⟩
    simpa using hcard
  have hαγ : γ ≠ α := fun h => h13 (by rw [← hα, ← hγ, h])
  have hd1 : 1 ≤ d := zmod_val_sub_pos hαγ
  have hdn : d < n := ZMod.val_lt _
  have hT2 : T2 = g (α + 1) := by rw [← hsucc, ← hα, hL.2]
  have hpredg : ∀ c : ZMod n, s.pred (g c) = g (c - 1) := by
    intro c
    have hx : s.succ (g (c - 1)) = g c := by
      rw [hL.2]
      congr 1
      ring
    rw [← hx, hpp]
  have hT4 : T4 = g (γ - 1) := by rw [hpred, ← hγ, hpredg]
  have hcastd : ((d : ℕ) : ZMod n) = α - γ := zmod_natCast_val_self _
  have hdn2 : d ≤ n - 2 := by
    by_contra hc
    push_neg at hc
    have hdeq : d = n - 1 := by omega
    have hsub : α - γ = ((n - 1 : ℕ) : ZMod n) := by rw [← hcastd, hdeq]
    have hn1 : ((n - 1 : ℕ) : ZMod n) = -1 := by
      have hzero : ((n : ℕ) : ZMod n) = 0 := ZMod.natCast_self n
      have : ((n - 1 : ℕ) : ZMod n) = ((n : ℕ) : ZMod n) - 1 := by
        have he : n - 1 + 1 = n := by omega
        calc ((n - 1 : ℕ) : ZMod n) = ((n - 1 : ℕ) : ZMod n) + 1 - 1 := by ring
          _ = (((n - 1 + 1 : ℕ)) : ZMod n) - 1 := by push_cast; ring
          _ = ((n : ℕ) : ZMod n) - 1 := by rw [he]
      rw [this, hzero]
      ring
    have hγα : γ = α + 1 := by
      rw [hn1] at hsub
      linear_combination -hsub
    exact h23 (by rw [hT2, ← hγ, hγα])
  set v : ℕ → Fin n := fun j => g (γ + j) with hv
  have hv0 : v 0 = T3 := by
    rw [hv]
    simp only [Nat.cast_zero, add_zero]
    exact hγ
  have hvd : v d = T1 := by
    rw [hv]
    simp only
    rw [hcastd]
    rw [show γ + (α - γ) = α by ring]
    exact hα
  have hvstep : ∀ j, j ≤ d → s.succ (v j) = v (j + 1) := by
    intro j hj
    rw [hv]
    simp only
    rw [hL.2]
    congr 1
    push_cast
    ring
  have hvinj : ∀ i j, i ≤ d + 1 → j ≤ d + 1 → v i = v j → i = j := by
    intro i j hi hj h
    have h1 : γ + (i : ZMod n) = γ + (j : ZMod n) := hbij.1 h
    have h2 : (i : ZMod n) = (j : ZMod n) := by linear_combination h1
    have h3 := congrArg ZMod.val h2
    rwa [ZMod.val_natCast_of_lt (by omega), ZMod.val_natCast_of_lt (by omega)] at h3
  have hend : s.succ T1 = v (d + 1) := by
    rw [hsucc, hT2, hv]
    simp only
    congr 1
    push_cast
    rw [hcastd]
    ring
  obtain ⟨hseg, huntouched⟩ :=
    revSegment_succ_spec isSub d v s p fuel hvstep hvinj (by omega)
  rw [hv0] at hseg huntouched
  rw [hend]
  set s' := Tour.revSegment fuel T3 (v (d + 1)) isSub p s with hs'
  set F := Function.update (Function.update s'.succ T3 T2) T4 T1 with hF
  -- membership helpers
  have hvmem : ∀ (c : ZMod n) (j : ℕ), j ≤ d + 1 → g c = v j → (c - γ).val = j := by
    intro c j hj h
    have h1 : c = γ + (j : ZMod n) := hbij.1 h
    have h2 : c - γ = (j : ZMod n) := by linear_combination h1
    rw [h2, ZMod.val_natCast_of_lt (by omega)]
  have hT3T4 : T3 ≠ T4 := by
    intro h
    have h1 : γ = γ - 1 := hbij.1 ((hγ.trans h).trans hT4)
    have h2 : ((1 : ℕ) : ZMod n) = 0 := by push_cast; linear_combination h1
    rw [ZMod.natCast_zmod_eq_zero_iff_dvd] at h2
    have := Nat.le_of_dvd one_pos h2
    omega
  -- pointwise description of the new succ
  have hFT4 : F T4 = T1 := by rw [hF, Function.update_same]
  have hFT3 : F T3 = T2 := by
    rw [hF, Function.update_noteq hT3T4, Function.update_same]
  have hFseg : ∀ j, 1 ≤ j → j ≤ d → F (v j) = v (j - 1) := by
    intro j hj1 hjd
    have hne4 : v j ≠ T4 := by
      intro h
      rw [hT4] at h
      have h1 : γ + (j : ZMod n) = γ - 1 := hbij.1 h
      have h2 : ((j + 1 : ℕ) : ZMod n) = 0 := by push_cast; linear_combination h1
      rw [ZMod.natCast_zmod_eq_zero_iff_dvd] at h2
      have := Nat.le_of_dvd (by omega) h2
      omega
    have hne3 : v j ≠ T3 := by
      intro h
      rw [← hv0] at h
      have := hvinj j 0 (by omega) (by omega) h
      omega
    rw [hF, Function.update_noteq hne4, Function.update_noteq hne3,
      hseg j hjd, hv]
    simp only
    rw [hpredg]
    congr 1
    have he : j - 1 + 1 = j := by omega
    calc γ + (j : ZMod n) - 1
        = γ + ((j - 1 + 1 : ℕ) : ZMod n) - 1 := by rw [he]
      _ = γ + ((j - 1 : ℕ) : ZMod n) := by push_cast; ring
  have hFout : ∀ c : ZMod n, d < (c - γ).val → c ≠ γ - 1 →
      F (g c) = g (c + 1) := by
    intro c hcd hc1
    have hne4 : g c ≠ T4 := by
      intro h
      rw [hT4] at h
      exact hc1 (hbij.1 h)
    have hne3 : g c ≠ T3 := by
      intro h
      have := hvmem c 0 (by omega) (by rw [hv0]; exact h)
      omega
    have hnotin : ∀ j, j ≤ d → g c ≠ v j := by
      intro j hj h
      have := hvmem c j (by omega) h
      omega
    rw [hF, Function.update_noteq hne4, Function.update_noteq hne3,
      huntouched (g c) hnotin, hL.2]
  -- the labelling of the rewired cycle: start at T3, then the outside arc
  -- from T2 to T4, then the reversed segment from T1 back to T3
  set h : ZMod n → Fin n :=
    fun k => if 1 ≤ k.val ∧ k.val ≤ n - d - 1 then g (α + k) else g (γ - k) with hh
  have hval1 : (1 : ZMod n).val = 1 := by
    rw [ZMod.val_one_eq_one_mod, Nat.mod_eq_of_lt (by omega)]
  have hsurjH : Function.Surjective h := by
    intro y
    obtain ⟨c, rfl⟩ := hbij.2 y
    by_cases hw : 1 ≤ (c - α).val ∧ (c - α).val ≤ n - d - 1
    · refine ⟨c - α, ?_⟩
      rw [hh]
      simp only
      rw [if_pos hw]
      congr 1
      ring
    · have hcond : ¬(1 ≤ (γ - c).val ∧ (γ - c).val ≤ n - d - 1) := by
        push_neg at hw
        intro hcon
        obtain ⟨hge1, hle⟩ := hcon
        have hwd : (c - γ).val = ((c - α).val + d) % n := by
          rw [show c - γ = (c - α) + (α - γ) by ring, ZMod.val_add]
        by_cases hcγ : c = γ
        · rw [hcγ, sub_self, ZMod.val_zero] at hge1
          omega
        · have hneg : (γ - c).val = n - (c - γ).val := by
            rw [show γ - c = -(c - γ) by ring, ZMod.neg_val,
              if_neg (sub_ne_zero.mpr hcγ)]
          have hvw := ZMod.val_lt (c - α)
          rcases Nat.eq_zero_or_pos (c - α).val with h0 | hpos
          · rw [h0, Nat.zero_add, Nat.mod_eq_of_lt hdn] at hwd
            omega
          · have hw2 : n - d - 1 < (c - α).val := hw hpos
            have hmod : ((c - α).val + d) % n = (c - α).val + d - n := by
              rw [Nat.mod_eq_sub_mod (by omega), Nat.mod_eq_of_lt (by omega)]
            rw [hmod] at hwd
            omega
      refine ⟨γ - c, ?_⟩
      rw [hh]
      simp only
      rw [if_neg hcond]
      congr 1
      ring
  have hbijH : Function.Bijective h :=
    (Fintype.bijective_iff_surjective_and_card h).mpr ⟨hsurjH, by simp [ZMod.card]⟩
  have hstepH : ∀ k : ZMod n, F (h k) = h (k + 1) := by
    intro k
    have hun : k.val < n := ZMod.val_lt k
    have hk : ((k.val : ℕ) : ZMod n) = k := zmod_natCast_val_self k
    have hvadd : (k + 1).val = (k.val + 1) % n := by
      rw [ZMod.val_add, hval1]
    by_cases hu0 : k.val = 0
    · have hk0 : k = 0 := (ZMod.val_eq_zero k).mp hu0
      have hhk : h k = T3 := by
        rw [hh]
        simp only
        rw [if_neg (by omega), hk0, sub_zero]
        exact hγ
      have hv1 : (k + 1).val = 1 := by
        rw [hvadd, hu0, Nat.zero_add, Nat.mod_eq_of_lt (by omega)]
      rw [hhk, hFT3, hT2, hh]
      simp only
      rw [if_pos ⟨by omega, by omega⟩, hk0]
      congr 1
      ring
    · by_cases hub : k.val ≤ n - d - 2
      · -- on the outside arc, not yet at T4
        have hhk : h k = g (α + k) := by
          rw [hh]
          simp only
          rw [if_pos ⟨by omega, by omega⟩]
        have hoff : α + k - γ = ((d + k.val : ℕ) : ZMod n) := by
          push_cast
          rw [hk, hcastd]
          ring
        have hoffv : (α + k - γ).val = d + k.val := by
          rw [hoff, ZMod.val_natCast_of_lt (by omega)]
        have hne : α + k ≠ γ - 1 := by
          intro hc
          have h1 : α + k - γ = -1 := by rw [hc]; ring
          have h2 : ((1 : ℕ) : ZMod n) + ((d + k.val : ℕ) : ZMod n) = 0 := by
            rw [← hoff, h1]
            push_cast
            ring
          have h3 : ((1 + (d + k.val) : ℕ) : ZMod n) = 0 := by
            push_cast
            push_cast at h2
            linear_combination h2
          rw [ZMod.natCast_zmod_eq_zero_iff_dvd] at h3
          have := Nat.le_of_dvd (by omega) h3
          omega
        rw [hhk, hFout (α + k) (by omega) hne]
        have hv1 : (k + 1).val = k.val + 1 := by
          rw [hvadd, Nat.mod_eq_of_lt (by omega)]
        rw [hh]
        simp only
        rw [if_pos ⟨by omega, by omega⟩]
        congr 1
        ring
      · by_cases huc : k.val = n - d - 1
        · -- at T4: rewired to T1
          have hhk : h k = g (α + k) := by
            rw [hh]
            simp only
            rw [if_pos ⟨by omega, by omega⟩]
          have hT4eq : α + k = γ - 1 := by
            have h1 : ((d + k.val : ℕ) : ZMod n) = ((n - 1 : ℕ) : ZMod n) := by
              rw [show d + k.val = n - 1 by omega]
            have h2 : α + k - γ = ((n - 1 : ℕ) : ZMod n) := by
              rw [show α + k - γ = ((d:ℕ) : ZMod n) + k - (0 : ZMod n) by
                rw [hcastd]; ring]
              rw [← hk]
              push_cast
              push_cast at h1
              linear_combination h1
            have h3 : ((n - 1 : ℕ) : ZMod n) = -1 := by
              rw [Nat.cast_sub (by omega)]
              simp [ZMod.natCast_self]
            have h4 : α + k - γ = -1 := by rw [h2, h3]
            linear_combination h4
          rw [hhk, hT4eq, ← hT4, hFT4]
          have hv1 : (k + 1).val = n - d := by
            rw [hvadd, show k.val + 1 = n - d by omega, Nat.mod_eq_of_lt (by omega)]
          rw [hh]
          simp only
          rw [if_neg (by omega)]
          rw [← hα]
          congr 1
          have h5 : γ - (k + 1) = α := by
            have h6 : k = ((n - d - 1 : ℕ) : ZMod n) := by rw [← hk, huc]
            rw [h6, Nat.cast_sub (by omega), Nat.cast_sub (by omega)]
            simp only [ZMod.natCast_self]
            rw [hcastd]
            ring
          rw [h5]
        · -- on the reversed segment
          have hud : n - d ≤ k.val := by omega
          set j := n - k.val with hj
          have hj1 : 1 ≤ j := by omega
          have hjd : j ≤ d := by omega
          have hkγ : γ - k = γ + ((j : ℕ) : ZMod n) := by
            rw [hj, Nat.cast_sub (by omega)]
            simp only [ZMod.natCast_self]
            rw [hk]
            ring
          have hhk : h k = v j := by
            rw [hh]
            simp only
            rw [if_neg (by omega), hkγ]
          rw [hhk, hFseg j hj1 hjd]
          by_cases hu9 : k.val = n - 1
          · have hk1 : k + 1 = 0 := by
              have : (k + 1).val = 0 := by
                rw [hvadd, hu9, show n - 1 + 1 = n by omega, Nat.mod_self]
              exact (ZMod.val_eq_zero _).mp this
            have hjj : j - 1 = 0 := by omega
            rw [hjj, hv0, hk1, hh]
            simp only
            rw [if_neg (by simp), sub_zero]
            exact hγ.symm
          · have hv1 : (k + 1).val = k.val + 1 := by
              rw [hvadd, Nat.mod_eq_of_lt (by omega)]
            rw [hh]
            simp only
            rw [if_neg (by omega)]
            rw [hv]
            simp only
            congr 1
            have h7 : γ - (k + 1) = γ + ((j - 1 : ℕ) : ZMod n) := by
              rw [Nat.cast_sub (by omega), hj, Nat.cast_sub (by omega)]
              simp only [ZMod.natCast_self]
              rw [hk]
              ring
            rw [h7]
  exact (show IsLabelling F h from ⟨hbijH, hstepH⟩).singleCycle

theorem mkEdgeO_eq_elim {a b c d : Node2} (h : mkEdgeO a b = mkEdgeO c d) :
    (a = c ∧ b = d) ∨ (a = d ∧ b = c) := by
  unfold mkEdgeO at h
  split_ifs at h <;> simp only [Prod.mk.injEq] at h <;> tauto

theorem setEdgesWalk_cover {n : ℕ} [NeZero n] (data : Fin n → Node2)
    (s : TourState n) {g : ZMod n → Fin n} (hL : IsLabelling s.succ g)
    (β : ZMod n) (hβ : g β = 0) :
    ∀ (r j : ℕ) (acc : Finset (Node2 × Node2)), j + r = n →
      setEdgesWalk data s r (g (β + j)) acc =
        acc ∪ (Finset.range r).image
          (fun i => mkEdgeO (data (g (β + (j + i : ℕ))))
            (data (s.succ (g (β + (j + i : ℕ)))))) := by
  intro r
  induction r with
  | zero =>
    intro j acc hj
    simp [setEdgesWalk]
  | succ r ih =>
    intro j acc hj
    have hstop : s.succ (g (β + j)) = 0 ↔ r = 0 := by
      rw [hL.2, ← hβ]
      constructor
      · intro h
        have h1 : β + (j : ZMod n) + 1 = β := hL.1.1 h
        have h2 : ((j + 1 : ℕ) : ZMod n) = 0 := by push_cast; linear_combination h1
        rw [ZMod.natCast_zmod_eq_zero_iff_dvd] at h2
        have := Nat.le_of_dvd (by omega) h2
        omega
      · intro h
        subst h
        congr 1
        have hjn : j + 1 = n := by omega
        have : ((j + 1 : ℕ) : ZMod n) = 0 := by rw [hjn]; exact ZMod.natCast_self n
        push_cast at this
        linear_combination this
    rw [setEdgesWalk]
    by_cases hr : r = 0
    · subst hr
      rw [if_pos (hstop.mpr rfl)]
      ext x
      simp only [Finset.mem_insert, Finset.mem_union, Finset.mem_image,
        Finset.mem_range]
      constructor
      · rintro (rfl | hx)
        · exact Or.inr ⟨0, by omega, by rw [Nat.add_zero]⟩
        · exact Or.inl hx
      · rintro (hx | ⟨i, hi, rfl⟩)
        · exact Or.inr hx
        · have hi0 : i = 0 := by omega
          subst hi0
          rw [Nat.add_zero]
          exact Or.inl rfl
    · rw [if_neg (fun hc => hr (hstop.mp hc))]
      have hnext : s.succ (g (β + j)) = g (β + (j + 1 : ℕ)) := by
        rw [hL.2]
        congr 1
        push_cast
        ring
      rw [hnext, ih (j + 1) _ (by omega)]
      have hsplit : (Finset.range (r + 1)).image
            (fun i => mkEdgeO (data (g (β + (j + i : ℕ))))
              (data (s.succ (g (β + (j + i : ℕ)))))) =
          insert (mkEdgeO (data (g (β + (j : ℕ)))) (data (s.succ (g (β + (j : ℕ))))))
            ((Finset.range r).image
              (fun i => mkEdgeO (data (g (β + (j + 1 + i : ℕ))))
                (data (s.succ (g (β + (j + 1 + i : ℕ))))))) := by
        ext x
        simp only [Finset.mem_image, Finset.mem_range, Finset.mem_insert]
        constructor
        · rintro ⟨i, hi, rfl⟩
          cases i with
          | zero => exact Or.inl (by rw [Nat.add_zero])
          | succ i => exact Or.inr ⟨i, by omega, by rw [show j + 1 + i = j + (i + 1) by omega]⟩
        · rintro (rfl | ⟨i, hi, rfl⟩)
          · exact ⟨0, by omega, by rw [Nat.add_zero]⟩
          · exact ⟨i + 1, by omega, by rw [show j + (i + 1) = j + 1 + i by omega]⟩
      rw [hsplit, Finset.insert_union, Finset.union_insert, hnext]

/-- `Tour.set_edges` on a feasible tour with `id = index` produces exactly
the canonical succ-induced edges, one per node. -/
theorem setEdgesO_of_singleCycle {n : ℕ} [NeZero n] (data : Fin n → Node2)
    (s : TourState n) (hfeas : SingleCycle s.succ)
    (hids : ∀ i : Fin n, (data i).id = i.val) (hn3 : 3 ≤ n) :
    setEdgesO data s =
      Finset.image (fun i => mkEdgeO (data i) (data (s.succ i))) Finset.univ ∧
    (setEdgesO data s).card = n := by
  obtain ⟨g, hL⟩ := hfeas.exists_labelling
  obtain ⟨β, hβ⟩ := hL.1.2 0
  have hmain : setEdgesO data s =
      Finset.image (fun i => mkEdgeO (data i) (data (s.succ i))) Finset.univ := by
    have h0 : (0 : Fin n) = g (β + (0 : ℕ)) := by
      rw [← hβ]
      congr 1
      push_cast
      ring
    rw [setEdgesO, h0, setEdgesWalk_cover data s hL β hβ n 0 ∅ (by omega)]
    rw [Finset.empty_union]
    have himg : (Finset.range n).image (fun i : ℕ => g (β + (0 + i : ℕ))) =
        Finset.univ := by
      apply Finset.eq_univ_of_forall
      intro x
      obtain ⟨c, rfl⟩ := hL.1.2 x
      refine Finset.mem_image.mpr ⟨(c - β).val, Finset.mem_range.mpr (ZMod.val_lt _), ?_⟩
      rw [Nat.zero_add]
      congr 1
      rw [zmod_natCast_val_self]
      ring
    calc (Finset.range n).image
          (fun i => mkEdgeO (data (g (β + (0 + i : ℕ)))) (data (s.succ (g (β + (0 + i : ℕ))))))
        = ((Finset.range n).image (fun i : ℕ => g (β + (0 + i : ℕ)))).image
            (fun x => mkEdgeO (data x) (data (s.succ x))) := by
          rw [Finset.image_image]
          rfl
      _ = Finset.image (fun x => mkEdgeO (data x) (data (s.succ x))) Finset.univ := by
          rw [himg]
  refine ⟨hmain, ?_⟩
  rw [hmain]
  have hdatal : ∀ x y : Fin n, data x = data y → x = y := by
    intro x y h
    have := congrArg Node2.id h
    rw [hids, hids] at this
    exact Fin.val_injective this
  have hnotwo : ∀ y : Fin n, s.succ (s.succ y) ≠ y := by
    intro y h
    obtain ⟨c, rfl⟩ := hL.1.2 y
    rw [hL.2, hL.2] at h
    have h1 : c + 1 + 1 = c := hL.1.1 h
    have h2 : ((2 : ℕ) : ZMod n) = 0 := by push_cast; linear_combination h1
    rw [ZMod.natCast_zmod_eq_zero_iff_dvd] at h2
    have := Nat.le_of_dvd (by omega) h2
    omega
  have hinjF : Set.InjOn (fun x => mkEdgeO (data x) (data (s.succ x)))
      (Finset.univ : Finset (Fin n)) := by
    intro x _ y _ h
    rcases mkEdgeO_eq_elim h with ⟨h1, _⟩ | ⟨h1, h2⟩
    · exact hdatal _ _ h1
    · have hx : x = s.succ y := hdatal _ _ h1
      have hy : s.succ x = y := hdatal _ _ h2
      exact absurd (by rw [← hx, hy] : s.succ (s.succ y) = y) (hnotwo y)
  rw [Finset.card_image_of_injOn hinjF]
  simp

end LK

namespace LK

theorem isSwapFeasible_true_elim {n : ℕ} {s : TourState n} {t1 t2 t3 t4 : Fin n}
    (h : isSwapFeasible s t1 t2 t3 t4 = true) :
    (t1 ≠ t2 ∧ t1 ≠ t3 ∧ t1 ≠ t4 ∧ t2 ≠ t3 ∧ t2 ≠ t4 ∧ t3 ≠ t4) ∧
    (s.succ t1 = t2 → t4 = s.pred t3) ∧
    (s.succ t1 ≠ t2 → s.pred t1 = t2 → t4 = s.succ t3) := by
  unfold isSwapFeasible at h
  by_cases hd : t1 ≠ t2 ∧ t1 ≠ t3 ∧ t1 ≠ t4 ∧ t2 ≠ t3 ∧ t2 ≠ t4 ∧ t3 ≠ t4
  · rw [if_neg (not_not_intro hd)] at h
    by_cases h1 : s.succ t1 = t2
    · rw [if_pos h1] at h
      simp only [decide_eq_true_eq] at h
      exact ⟨hd, fun _ => h, fun hc => absurd h1 hc⟩
    · rw [if_neg h1] at h
      by_cases h2 : s.pred t1 = t2
      · rw [if_pos h2] at h
        simp only [decide_eq_true_eq] at h
        exact ⟨hd, fun hc => absurd hc h1, fun _ _ => h⟩
      · exact ⟨hd, fun hc => absurd hc h1, fun _ hc => absurd hc h2⟩
  · rw [if_pos hd] at h
    exact absurd h (by simp)

/-- **C4 (amended).**  For every feasible tour (one `succ` cycle over all
`N` nodes, `pred` inverse to `succ`) and every quadruple `(t1,t2,t3,t4)`
with `(t1,t2)` an edge of the tour for which `is_swap_feasible` returns
true, after `swap_feasible(t1,t2,t3,t4)` (with `is_subtour = false`) the
succ chain again forms one single cycle over all `N` nodes, and re-deriving
the tour's edge set via `set_edges` yields exactly the `N` canonical
succ-induced edges.  (Two amendments against the claim as stated: the edge
hypothesis on `(t1,t2)` is required because the classifier never checks it,
and `swap_feasible` itself never refreshes `self.edges`, so the edge-set
part holds only for the recomputed edge set — see
`swap_feasible_claim_as_stated_fails`.) -/
theorem swap_feasible_single_cycle {n : ℕ} [NeZero n] (t : TourFull n)
    (t1 t2 t3 t4 : Fin n) (data : Fin n → Node2)
    (hfeas : SingleCycle t.st.succ)
    (hpp : ∀ x, t.st.pred (t.st.succ x) = x)
    (hedge1 : t2 = t.st.succ t1 ∨ t2 = t.st.pred t1)
    (hcls : isSwapFeasible t.st t1 t2 t3 t4 = true)
    (hids : ∀ i : Fin n, (data i).id = i.val) :
    SingleCycle (Tour.swapFeasible t t1 t2 t3 t4 false true).st.succ ∧
    setEdgesO data (Tour.swapFeasible t t1 t2 t3 t4 false true).st =
      Finset.image (fun i => mkEdgeO (data i)
        (data ((Tour.swapFeasible t t1 t2 t3 t4 false true).st.succ i)))
        Finset.univ ∧
    (setEdgesO data (Tour.swapFeasible t t1 t2 t3 t4 false true).st).card = n := by
  obtain ⟨⟨hd12, hd13, hd14, hd23, hd24, hd34⟩, horA, horB⟩ :=
    isSwapFeasible_true_elim hcls
  have hbij := hfeas.bijective
  have hsp : ∀ x, t.st.succ (t.st.pred x) = x := by
    intro y
    obtain ⟨x, rfl⟩ := hbij.2 y
    rw [hpp]
  obtain ⟨g, hL⟩ := hfeas.exists_labelling
  have hn3 : 3 ≤ n := by
    have hcard3 : ({t1, t2, t3} : Finset (Fin n)).card = 3 := by
      rw [Finset.card_insert_of_not_mem (by simp [hd12, hd13]),
        Finset.card_insert_of_not_mem (by simp [hd23]), Finset.card_singleton]
    have h := Finset.card_le_univ ({t1, t2, t3} : Finset (Fin n))
    rw [hcard3, Fintype.card_fin] at h
    exact h
  have hmain : SingleCycle (Tour.swapFeasible t t1 t2 t3 t4 false true).st.succ := by
    by_cases hA : t.st.succ t1 = t2
    · have ht4 : t4 = t.st.pred t3 := horA hA
      by_cases hB : 2 * (if t.st.pos t2 - t.st.pos t3 < 0
            then t.st.pos t2 - t.st.pos t3 + (n : ℤ)
            else t.st.pos t2 - t.st.pos t3) > (n : ℤ)
      · -- step B fires: normalized quadruple (t4, t3, t2, t1)
        have hst : (Tour.swapFeasible t t1 t2 t3 t4 false true).st.succ =
            Function.update (Function.update
              (Tour.revSegment (n + 1) t2 (t.st.succ t4) false (t.st.pos t4)
                t.st).succ t2 t3) t1 t4 := by
          simp only [Tour.swapFeasible]
          rw [if_neg (not_not_intro hA)]
          dsimp only
          rw [if_pos hB]
        rw [hst]
        have hsucc4 : t.st.succ t4 = t3 := by rw [ht4, hsp]
        have hpred2 : t1 = t.st.pred t2 := by rw [← hA, hpp]
        exact feasCore_singleCycle hL hpp t4 t3 t2 t1 hsucc4 hpred2
          (fun h => hd24 h.symm) (fun h => hd23 h.symm) false (t.st.pos t4)
          (n + 1) (by omega)
      · -- step B does not fire: normalized quadruple (t1, t2, t3, t4)
        have hst : (Tour.swapFeasible t t1 t2 t3 t4 false true).st.succ =
            Function.update (Function.update
              (Tour.revSegment (n + 1) t3 (t.st.succ t1) false (t.st.pos t1)
                t.st).succ t3 t2) t4 t1 := by
          simp only [Tour.swapFeasible]
          rw [if_neg (not_not_intro hA)]
          dsimp only
          rw [if_neg hB]
        rw [hst]
        exact feasCore_singleCycle hL hpp t1 t2 t3 t4 hA ht4 hd13 hd23 false
          (t.st.pos t1) (n + 1) (by omega)
    · have ht2 : t2 = t.st.pred t1 := by
        rcases hedge1 with h | h
        · exact absurd h.symm hA
        · exact h
      have ht4 : t4 = t.st.succ t3 := horB hA ht2.symm
      have hsucc2 : t.st.succ t2 = t1 := by rw [ht2, hsp]
      by_cases hB : 2 * (if t.st.pos t1 - t.st.pos t4 < 0
            then t.st.pos t1 - t.st.pos t4 + (n : ℤ)
            else t.st.pos t1 - t.st.pos t4) > (n : ℤ)
      · -- roles swapped and step B fires: normalized quadruple (t3, t4, t1, t2)
        have hst : (Tour.swapFeasible t t1 t2 t3 t4 false true).st.succ =
            Function.update (Function.update
              (Tour.revSegment (n + 1) t1 (t.st.succ t3) false (t.st.pos t3)
                t.st).succ t1 t4) t2 t3 := by
          simp only [Tour.swapFeasible]
          rw [if_pos hA]
          dsimp only
          rw [if_pos hB]
        rw [hst]
        exact feasCore_singleCycle hL hpp t3 t4 t1 t2 ht4.symm ht2
          (fun h => hd13 h.symm) (fun h => hd14 h.symm) false (t.st.pos t3)
          (n + 1) (by omega)
      · -- roles swapped, step B does not fire: normalized quadruple (t2, t1, t4, t3)
        have hst : (Tour.swapFeasible t t1 t2 t3 t4 false true).st.succ =
            Function.update (Function.update
              (Tour.revSegment (n + 1) t4 (t.st.succ t2) false (t.st.pos t2)
                t.st).succ t4 t1) t3 t2 := by
          simp only [Tour.swapFeasible]
          rw [if_pos hA]
          dsimp only
          rw [if_neg hB]
        rw [hst]
        have hpred4 : t3 = t.st.pred t4 := by rw [ht4, hpp]
        exact feasCore_singleCycle hL hpp t2 t1 t4 t3 hsucc2 hpred4
          hd24 hd14 false (t.st.pos t2) (n + 1) (by omega)
  obtain ⟨he1, he2⟩ := setEdgesO_of_singleCycle data
    (Tour.swapFeasible t t1 t2 t3 t4 false true).st hmain hids hn3
  exact ⟨hmain, he1, he2⟩

/-- Witness for `swap_feasible_single_cycle`: the six-node demo tour with
the valid feasible quadruple `(0, 1, 3, 2)`. -/
theorem swap_feasible_single_cycle_witness :
    SingleCycle (Tour.swapFeasible demoFull6 0 1 3 2 false true).st.succ ∧
    setEdgesO demoData6 (Tour.swapFeasible demoFull6 0 1 3 2 false true).st =
      Finset.image (fun i => mkEdgeO (demoData6 i)
        (demoData6 ((Tour.swapFeasible demoFull6 0 1 3 2 false true).st.succ i)))
        Finset.univ ∧
    (setEdgesO demoData6 (Tour.swapFeasible demoFull6 0 1 3 2 false true).st).card = 6 :=
  swap_feasible_single_cycle demoFull6 0 1 3 2 demoData6 (by decide) (by decide)
    (by decide) (by decide) (by decide)

end LK

namespace LK

/-- Witness for `swap_unfeasible_two_cycles`: the six-node demo tour with
the valid unfeasible quadruple `(0, 1, 3, 4)`. -/
theorem swap_unfeasible_two_cycles_witness :
    TwoCycleDecomp (Tour.swapUnfeasible demoFull6 0 1 3 4 false true).st.succ :=
  swap_unfeasible_two_cycles demoFull6 0 1 3 4 (by decide) (by decide)
    (by decide) (by decide) (by decide)

end LK

namespace LK

/-- The Python hash key of an old-layout edge: `Edge.__hash__` is
`hash((n1, n2))` and `Node2D.__hash__` is `hash((x, y))`, so two edges
whose stored node pairs agree coordinate-wise collide. -/
def edgeHashKeyO (e : Node2 × Node2) : (ℚ × ℚ) × (ℚ × ℚ) :=
  ((e.1.x, e.1.y), (e.2.x, e.2.y))

/-- `Edge.__init__` of `lk_heuristic/models/edge.py` (lines 6-24): order the
endpoints by node id (`Node.__gt__` compares ids; `n1 < n2` resolves to
`n2.id > n1.id`). -/
def mkEdgeN (a b : Node2) : Node2 × Node2 :=
  if a.id < b.id then (a, b) else (b, a)

/-- `Edge.__eq__` of `lk_heuristic/models/edge.py` (lines 26-35): node
equality is id equality (`Node.__eq__`), and both endpoint orders are
checked. -/
def edgeEqN (e f : Node2 × Node2) : Prop :=
  (e.1.id = f.1.id ∧ e.2.id = f.2.id) ∨ (e.1.id = f.2.id ∧ e.2.id = f.1.id)

instance (e f : Node2 × Node2) : Decidable (edgeEqN e f) := by
  unfold edgeEqN; infer_instance

/-- `Edge.__hash__` of `lk_heuristic/models/edge.py` (lines 37-44):
`hash((n1.id, n2.id))`. -/
def edgeHashKeyN (e : Node2 × Node2) : ℕ × ℕ :=
  (e.1.id, e.2.id)

/-- Node with id 0 at coordinates (1, 1). -/
def nodeA : Node2 := { id := 0, x := 1, y := 1 }

/-- Node with id 1 at the same coordinates (1, 1). -/
def nodeB : Node2 := { id := 1, x := 1, y := 1 }

/-- **C8.**  The claim fails in the old-layout `models/edge.py`: for the
distinct-id nodes `nodeA` and `nodeB` with identical coordinates,
`Node2D.__gt__` holds in neither direction, so `Edge(a,b)` stores `(b,a)`
while `Edge(b,a)` stores `(a,b)`; `Edge.__eq__` (positional comparison with
id-sensitive `Node2D.__eq__`) then rejects `Edge(a,b) == Edge(b,a)`, even
though the two hash keys (coordinate tuples) agree.  The new-layout
`lk_heuristic/models/edge.py`, which orders and hashes by id and checks
both endpoint orders, satisfies the claim on the same input. -/
theorem edge_symmetry_fails_on_duplicate_coordinates :
    mkEdgeO nodeA nodeB ≠ mkEdgeO nodeB nodeA ∧
    edgeHashKeyO (mkEdgeO nodeA nodeB) = edgeHashKeyO (mkEdgeO nodeB nodeA) ∧
    edgeEqN (mkEdgeN nodeA nodeB) (mkEdgeN nodeB nodeA) ∧
    edgeHashKeyN (mkEdgeN nodeA nodeB) = edgeHashKeyN (mkEdgeN nodeB nodeA) := by
  refine ⟨?_, by decide, by decide, by decide⟩
  intro h
  have := congrArg (fun e => e.1.id) h
  simp [mkEdgeO, nodeA, nodeB, node2Gt] at this

end LK

namespace LK

/-- The `while` loop of `Tour.between` in pred/succ mode (lines 272-284):
walk `succ` from the current node; reaching `to_node` returns false,
reaching `between_node` first returns true.  `fuel` bounds the iteration
count (`n` suffices when `to_node` is reachable). -/
def betweenSuccAux {n : ℕ} (s : TourState n) (m toN : Fin n) :
    ℕ → Fin n → Bool
  | 0, _ => false
  | fuel + 1, node =>
    if node = toN then false
    else if node = m then true
    else betweenSuccAux s m toN fuel (s.succ node)

/-- `Tour.between` (lines 243-284): `use_pos_attr` selects the O(1) check on
`pos` values; otherwise the tour is traversed via `succ` starting from
`from_node.succ`. -/
def between {n : ℕ} (s : TourState n) (a m b : Fin n) (usePos : Bool) : Bool :=
  if usePos then
    if s.pos a ≤ s.pos b then
      decide (s.pos a < s.pos m ∧ s.pos m < s.pos b)
    else
      decide (s.pos a < s.pos m ∨ s.pos m < s.pos b)
  else betweenSuccAux s m b n (s.succ a)

theorem betweenSuccAux_spec {n : ℕ} (s : TourState n) (m b : Fin n) :
    ∀ (fuel k : ℕ) (start : Fin n), k < fuel → s.succ^[k] start = b →
      (∀ j < k, s.succ^[j] start ≠ b) →
      (betweenSuccAux s m b fuel start = true ↔ ∃ j < k, s.succ^[j] start = m) := by
  intro fuel
  induction fuel with
  | zero => intro k start hk; omega
  | succ fuel ih =>
    intro k start hk hreach hfirst
    match k with
    | 0 =>
      rw [Function.iterate_zero_apply] at hreach
      rw [betweenSuccAux, if_pos hreach]
      simp
    | k + 1 =>
      have hsb : start ≠ b := by
        have := hfirst 0 (by omega)
        rwa [Function.iterate_zero_apply] at this
      rw [betweenSuccAux, if_neg hsb]
      by_cases hsm : start = m
      · rw [if_pos hsm]
        simp only [true_iff]
        exact ⟨0, by omega, by rwa [Function.iterate_zero_apply]⟩
      · rw [if_neg hsm]
        have hreach' : s.succ^[k] (s.succ start) = b := by
          rwa [← Function.iterate_succ_apply]
        have hfirst' : ∀ j < k, s.succ^[j] (s.succ start) ≠ b := by
          intro j hj
          rw [← Function.iterate_succ_apply]
          exact hfirst (j + 1) (by omega)
        rw [ih k (s.succ start) (by omega) hreach' hfirst']
        constructor
        · rintro ⟨j, hj, hm⟩
          exact ⟨j + 1, by omega, by rwa [Function.iterate_succ_apply]⟩
        · rintro ⟨j, hj, hm⟩
          match j with
          | 0 =>
            rw [Function.iterate_zero_apply] at hm
            exact absurd hm hsm
          | j + 1 =>
            exact ⟨j, by omega, by rwa [Function.iterate_succ_apply] at hm⟩

/-- **C6.**  For pairwise distinct nodes `a`, `m`, `b`: in pos mode
`between(a, m, b, use_pos_attr=true)` returns `a.pos < m.pos ∧ m.pos < b.pos`
when `a.pos ≤ b.pos` and `a.pos < m.pos ∨ m.pos < b.pos` otherwise; in succ
mode (with `b` first reached from `a.succ` after `k+1` succ steps, `k < n`)
it returns true iff `m` is encountered strictly before `b` when traversing
`succ` from `a.succ`. -/
theorem between_pos_and_succ_mode {n : ℕ} (s : TourState n) (a m b : Fin n)
    (k : ℕ) (ham : a ≠ m) (hab : a ≠ b) (hmb : m ≠ b)
    (hreach : s.succ^[k + 1] a = b)
    (hfirst : ∀ j : Fin k, s.succ^[(j : ℕ) + 1] a ≠ b)
    (hk : k < n) :
    (s.pos a ≤ s.pos b →
      (between s a m b true = true ↔ s.pos a < s.pos m ∧ s.pos m < s.pos b)) ∧
    (¬ s.pos a ≤ s.pos b →
      (between s a m b true = true ↔ s.pos a < s.pos m ∨ s.pos m < s.pos b)) ∧
    (between s a m b false = true ↔ ∃ j < k, s.succ^[j + 1] a = m) := by
  refine ⟨?_, ?_, ?_⟩
  · intro hle
    rw [between, if_pos rfl, if_pos hle]
    simp
  · intro hle
    rw [between, if_pos rfl, if_neg hle]
    simp
  · have hreach' : s.succ^[k] (s.succ a) = b := by
      rwa [← Function.iterate_succ_apply]
    have hfirst' : ∀ j < k, s.succ^[j] (s.succ a) ≠ b := by
      intro j hj
      rw [← Function.iterate_succ_apply]
      exact hfirst ⟨j, hj⟩
    rw [between, if_neg (by simp)]
    rw [betweenSuccAux_spec s m b n k (s.succ a) hk hreach' hfirst']
    constructor
    · rintro ⟨j, hj, hm⟩
      exact ⟨j, hj, by rwa [Function.iterate_succ_apply]⟩
    · rintro ⟨j, hj, hm⟩
      exact ⟨j, hj, by rwa [Function.iterate_succ_apply] at hm⟩

/-- Witness for `between_pos_and_succ_mode`: on the six-node demo tour,
`a = 0`, `m = 1`, `b = 3`, with `b` first reached after three succ steps. -/
theorem between_pos_and_succ_mode_witness :
    ((demoTour6.pos 0 ≤ demoTour6.pos 3 →
      (between demoTour6 0 1 3 true = true ↔
        demoTour6.pos 0 < demoTour6.pos 1 ∧ demoTour6.pos 1 < demoTour6.pos 3)) ∧
    (¬ demoTour6.pos 0 ≤ demoTour6.pos 3 →
      (between demoTour6 0 1 3 true = true ↔
        demoTour6.pos 0 < demoTour6.pos 1 ∨ demoTour6.pos 1 < demoTour6.pos 3)) ∧
    (between demoTour6 0 1 3 false = true ↔
      ∃ j < 2, demoTour6.succ^[j + 1] 0 = 1)) :=
  between_pos_and_succ_mode demoTour6 0 1 3 2 (by decide) (by decide) (by decide)
    (by decide) (by decide) (by decide)

end LK

namespace LK

/-- Python list indexing, including negative indices (`l[-1]` is the last
element). -/
def pyGet {n : ℕ} [NeZero n] (l : List (Fin n)) (i : ℤ) : Fin n :=
  if 0 ≤ i then l.getD i.toNat 0 else l.getD ((l.length : ℤ) + i).toNat 0

/-- The `for i in range(-1, self.size - 1)` loop of `Tour.shuffle`
(lines 184-189): each iteration rewires the current node's `succ`, `pred`
and `pos` from the shuffled index list and advances to the new successor. -/
def shuffleLoop {n : ℕ} [NeZero n] (idxs : List (Fin n)) :
    ℕ → ℤ → Fin n → TourState n → TourState n
  | 0, _, _, s => s
  | steps + 1, i, curr, s =>
    let s' : TourState n :=
      { s with succ := Function.update s.succ curr (pyGet idxs (i + 1))
               pred := Function.update s.pred curr (pyGet idxs (i - 1))
               pos := Function.update s.pos curr (i + 1) }
    shuffleLoop idxs steps (i + 1) (pyGet idxs (i + 1)) s'

/-- `Tour.shuffle` (lines 169-192): `idxs0` is the random permutation of the
indices `1..size-1`; the code appends index 0 to it and runs the rewiring
loop for `size` iterations starting at `i = -1` on `nodes[0]`. -/
def shuffleT {n : ℕ} [NeZero n] (idxs0 : List (Fin n)) (s : TourState n) :
    TourState n :=
  shuffleLoop (idxs0 ++ [0]) n (-1) 0 s

/-- The node visited by the shuffle loop at iteration `t`: `nodes[0]` first,
then the nodes named by the index list in order. -/
def shuffleC {n : ℕ} [NeZero n] (idxs : List (Fin n)) : ℕ → Fin n
  | 0 => 0
  | t + 1 => idxs.getD t 0

theorem shuffleLoop_ids {n : ℕ} [NeZero n] (idxs : List (Fin n)) :
    ∀ (steps : ℕ) (i : ℤ) (curr : Fin n) (s : TourState n),
      (shuffleLoop idxs steps i curr s).ids = s.ids := by
  intro steps
  induction steps with
  | zero => intro i curr s; rfl
  | succ steps ih => intro i curr s; simp only [shuffleLoop]; rw [ih]

theorem pyGet_shuffleC {n : ℕ} [NeZero n] (idxs : List (Fin n)) (t : ℕ) :
    pyGet idxs ((t : ℤ) - 1 + 1) = shuffleC idxs (t + 1) := by
  have h : (t : ℤ) - 1 + 1 = (t : ℤ) := by ring
  rw [h]
  unfold pyGet
  rw [if_pos (Int.natCast_nonneg t)]
  simp [shuffleC]

theorem shuffleLoop_pos_untouched {n : ℕ} [NeZero n] (idxs : List (Fin n)) :
    ∀ (steps t : ℕ) (s : TourState n) (x : Fin n),
      (∀ u, t ≤ u → u < t + steps → shuffleC idxs u ≠ x) →
      (shuffleLoop idxs steps ((t : ℤ) - 1) (shuffleC idxs t) s).pos x = s.pos x := by
  intro steps
  induction steps with
  | zero => intro t s x _; rfl
  | succ steps ih =>
    intro t s x hnot
    have hx : x ≠ shuffleC idxs t := fun h => hnot t le_rfl (by omega) h.symm
    simp only [shuffleLoop]
    have harg : (t : ℤ) - 1 + 1 = ((t + 1 : ℕ) : ℤ) - 1 := by push_cast; ring
    rw [pyGet_shuffleC idxs t, harg]
    rw [ih (t + 1) _ x (fun u h1 h2 => hnot u (by omega) (by omega))]
    exact Function.update_noteq hx _ _

theorem shuffleLoop_pos_at {n : ℕ} [NeZero n] (idxs : List (Fin n)) :
    ∀ (steps t : ℕ) (s : TourState n) (u : ℕ) (x : Fin n),
      t ≤ u → u < t + steps → shuffleC idxs u = x →
      (∀ v, u < v → v < t + steps → shuffleC idxs v ≠ x) →
      (shuffleLoop idxs steps ((t : ℤ) - 1) (shuffleC idxs t) s).pos x = (u : ℤ) := by
  intro steps
  induction steps with
  | zero => intro t s u x h1 h2 _ _; omega
  | succ steps ih =>
    intro t s u x h1 h2 hcu hlast
    simp only [shuffleLoop]
    have harg : (t : ℤ) - 1 + 1 = ((t + 1 : ℕ) : ℤ) - 1 := by push_cast; ring
    rw [pyGet_shuffleC idxs t, harg]
    by_cases hut : u = t
    · subst hut
      rw [shuffleLoop_pos_untouched idxs steps (u + 1) _ x
        (fun v hv1 hv2 => hlast v (by omega) (by omega))]
      rw [← hcu]
      show Function.update s.pos (shuffleC idxs u) (((u + 1 : ℕ) : ℤ) - 1)
        (shuffleC idxs u) = (u : ℤ)
      rw [Function.update_same]
      push_cast
      ring
    · exact ih (t + 1) _ u x (by omega) (by omega) hcu
        (fun v hv1 hv2 => hlast v (by omega) (by omega))

end LK

namespace LK

theorem shuffleC_get {n : ℕ} [NeZero n] (idxs0 : List (Fin n)) (k : ℕ)
    (hk : k < idxs0.length) :
    shuffleC (idxs0 ++ [0]) (k + 1) = idxs0.get ⟨k, hk⟩ := by
  show (idxs0 ++ [0]).getD k 0 = idxs0.get ⟨k, hk⟩
  rw [List.getD_eq_getElem _ _ (by simp; omega), List.getElem_append_left hk]
  rfl

/-- **C10.**  `Tour.shuffle` never relocates the first node: modelling the
random draw as an arbitrary permutation `idxs0` of the indices `1..N-1`,
after the shuffle loop `nodes[0]` has `pos = 0`, the node at index
`idxs0[j]` has `pos = j + 1` (so only positions `1..N-1` are permuted), and
every node keeps its id. -/
theorem shuffle_keeps_first_node {n : ℕ} [NeZero n] (s : TourState n)
    (idxs0 : List (Fin n)) (hlen : idxs0.length = n - 1)
    (hnd : idxs0.Nodup) (h0 : (0 : Fin n) ∉ idxs0) :
    (shuffleT idxs0 s).pos 0 = 0 ∧
    (∀ j : Fin idxs0.length,
      (shuffleT idxs0 s).pos (idxs0.get j) = (j : ℕ) + 1) ∧
    (shuffleT idxs0 s).ids = s.ids := by
  have hn : 0 < n := Nat.pos_of_ne_zero (NeZero.ne n)
  have hstart : shuffleT idxs0 s =
      shuffleLoop (idxs0 ++ [0]) n (((0 : ℕ) : ℤ) - 1)
        (shuffleC (idxs0 ++ [0]) 0) s := by
    show shuffleLoop (idxs0 ++ [0]) n (-1) 0 s = _
    norm_num
    rfl
  have hcv : ∀ v, 0 < v → v < n → ∃ hv : v - 1 < idxs0.length,
      shuffleC (idxs0 ++ [0]) v = idxs0.get ⟨v - 1, hv⟩ := by
    intro v hv1 hv2
    have hv : v - 1 < idxs0.length := by omega
    refine ⟨hv, ?_⟩
    have := shuffleC_get idxs0 (v - 1) hv
    rwa [show v - 1 + 1 = v by omega] at this
  refine ⟨?_, ?_, ?_⟩
  · rw [hstart]
    have h := shuffleLoop_pos_at (idxs0 ++ [0]) n 0 s 0 0 le_rfl (by omega) rfl ?_
    · rw [h]; rfl
    · intro v hv1 hv2
      obtain ⟨hv, hc⟩ := hcv v hv1 (by omega)
      rw [hc]
      exact fun hcontra => h0 (hcontra ▸ List.get_mem idxs0 _ _)
  · intro j
    rw [hstart]
    have hjn : (j : ℕ) + 1 < n := by omega
    have hcu : shuffleC (idxs0 ++ [0]) ((j : ℕ) + 1) = idxs0.get j := by
      rw [shuffleC_get idxs0 (j : ℕ) j.isLt]
    have h := shuffleLoop_pos_at (idxs0 ++ [0]) n 0 s ((j : ℕ) + 1) (idxs0.get j)
      (by omega) (by omega) hcu ?_
    · rw [h]; push_cast; ring
    · intro v hv1 hv2
      obtain ⟨hv, hc⟩ := hcv v (by omega) (by omega)
      rw [hc]
      intro hcontra
      have hinj := List.nodup_iff_injective_get.mp hnd hcontra
      have : v - 1 = (j : ℕ) := congrArg Fin.val hinj
      omega
  · rw [shuffleT, shuffleLoop_ids]

/-- A permutation of the indices `1..5` for the shuffle witness. -/
def shuffleIdxsDemo : List (Fin 6) := [3, 1, 5, 2, 4]

/-- Witness for `shuffle_keeps_first_node`: the six-node demo tour shuffled
with the permutation `[3, 1, 5, 2, 4]` of `1..5`. -/
theorem shuffle_keeps_first_node_witness :
    (shuffleT shuffleIdxsDemo demoTour6).pos 0 = 0 ∧
    (∀ j : Fin shuffleIdxsDemo.length,
      (shuffleT shuffleIdxsDemo demoTour6).pos (shuffleIdxsDemo.get j) = (j : ℕ) + 1) ∧
    (shuffleT shuffleIdxsDemo demoTour6).ids = demoTour6.ids :=
  shuffle_keeps_first_node demoTour6 shuffleIdxsDemo (by decide) (by decide)
    (by decide)

end LK

namespace LK

/-- `Tour.set_nodes` (lines 37-58) applied to an `n`-node list: the
successor of the last node is `nodes[0]`, otherwise `nodes[i+1]`; the
predecessor is `nodes[i-1]` (Python index `-1` wraps to the last node,
which Fin subtraction models); `pos` and `id` are set to the index,
overwriting whatever ids the input nodes carried.  `Tour.__init__`
(lines 11-35) performs no validation of any kind. -/
def setNodesT (n : ℕ) [NeZero n] : TourState n :=
  { succ := fun i => if i.val = n - 1 then 0 else i + 1
    pred := fun i => i - 1
    pos := fun i => (i.val : ℤ)
    ids := fun i => i.val }

/-- Modelled from the spec: the acceptance condition the spec asserts for
construction (at least 3 nodes and pairwise distinct input ids, everything
else rejected with `InvalidInput`).  Stated from the spec's words for
comparison with the source-translated constructor `setNodesT`; no such
check or error exists anywhere in the source. -/
def tourInitSpecClaim (n : ℕ) (ids : Fin n → ℕ) : Prop :=
  3 ≤ n ∧ ∀ i j : Fin n, ids i = ids j → i = j

instance (n : ℕ) (ids : Fin n → ℕ) : Decidable (tourInitSpecClaim n ids) := by
  unfold tourInitSpecClaim; infer_instance

/-- The claim as stated fails: a 2-node construction, which the spec says
must be rejected with `InvalidInput`, succeeds and produces the well-formed
2-cycle; a 3-node construction from nodes that all carry the duplicate
id 7, which the spec also says must be rejected, succeeds with the ids
silently overwritten by the index, ending up pairwise distinct. -/
theorem tour_construction_validation_missing :
    ¬ tourInitSpecClaim 2 (fun i => i.val) ∧
    SingleCycle (setNodesT 2).succ ∧
    (setNodesT 2).succ 0 = 1 ∧ (setNodesT 2).succ 1 = 0 ∧
    (∀ i : Fin 2, (setNodesT 2).ids i = i.val) ∧
    ¬ tourInitSpecClaim 3 (fun _ => 7) ∧
    (∀ i j : Fin 3, (setNodesT 3).ids i = (setNodesT 3).ids j → i = j) := by
  decide

/-- **C9 (amended).**  Construction never fails: for every node count
`n ≥ 1` (including `n < 3` and duplicate input ids, which the claim says
are rejected with `InvalidInput` — no such error exists in the source),
`Tour.__init__` produces the cyclic state with `id = pos = index`, `succ`
the cyclic next node and `pred` the cyclic previous node, whose succ graph
is a single cycle over all `n` nodes. -/
theorem tour_construction_total (n : ℕ) [NeZero n] :
    (∀ i : Fin n, (setNodesT n).ids i = i.val) ∧
    (∀ i : Fin n, (setNodesT n).pos i = (i.val : ℤ)) ∧
    (∀ i : Fin n, (setNodesT n).succ i = i + 1) ∧
    (∀ i : Fin n, (setNodesT n).pred i = i - 1) ∧
    SingleCycle (setNodesT n).succ := by
  have hn : 0 < n := Nat.pos_of_ne_zero (NeZero.ne n)
  have hsucc : ∀ i : Fin n, (setNodesT n).succ i = i + 1 := by
    intro i
    show (if i.val = n - 1 then (0 : Fin n) else i + 1) = i + 1
    by_cases h : i.val = n - 1
    · rw [if_pos h]
      apply Fin.ext
      rw [Fin.val_add, Fin.val_one', h]
      show 0 = (n - 1 + 1 % n) % n
      rcases Nat.eq_or_lt_of_le hn with h1 | h1
      · rw [← h1]
      · rw [Nat.mod_eq_of_lt h1, show n - 1 + 1 = n by omega, Nat.mod_self]
    · rw [if_neg h]
  refine ⟨fun _ => rfl, fun _ => rfl, hsucc, fun _ => rfl, ?_⟩
  have hL : IsLabelling (setNodesT n).succ
      (fun c : ZMod n => (⟨c.val, ZMod.val_lt c⟩ : Fin n)) := by
    constructor
    · constructor
      · intro a b hab
        have hv : a.val = b.val := congrArg Fin.val hab
        calc a = ((a.val : ℕ) : ZMod n) := (zmod_natCast_val_self a).symm
          _ = ((b.val : ℕ) : ZMod n) := by rw [hv]
          _ = b := zmod_natCast_val_self b
      · intro x
        refine ⟨((x.val : ℕ) : ZMod n), ?_⟩
        apply Fin.ext
        show (((x.val : ℕ) : ZMod n)).val = x.val
        exact ZMod.val_natCast_of_lt x.isLt
    · intro c
      rw [hsucc]
      apply Fin.ext
      rw [Fin.val_add, Fin.val_one']
      show (c.val + 1 % n) % n = (c + 1).val
      rw [ZMod.val_add, ZMod.val_one_eq_one_mod]
  exact hL.singleCycle

/-- Witness for `tour_construction_total`: the 2-node instance that the
claim says cannot be constructed. -/
theorem tour_construction_total_witness :
    (∀ i : Fin 2, (setNodesT 2).ids i = i.val) ∧
    (∀ i : Fin 2, (setNodesT 2).pos i = (i.val : ℤ)) ∧
    (∀ i : Fin 2, (setNodesT 2).succ i = i + 1) ∧
    (∀ i : Fin 2, (setNodesT 2).pred i = i - 1) ∧
    SingleCycle (setNodesT 2).succ :=
  tour_construction_total 2

end LK

namespace LK

/-- Python `dict` assignment `d[k] = v`: an existing key keeps its original
position and gets the new value; a new key is appended. -/
def dictInsert {K V : Type} [DecidableEq K] (l : List (K × V)) (k : K) (v : V) :
    List (K × V) :=
  if l.any (fun p => p.1 = k) then
    l.map (fun p => if p.1 = k then (k, v) else p)
  else l ++ [(k, v)]

/-- One candidate inspection of `Tsp.get_best_neighbors` (lines 169-178):
when `t1` is supplied the candidate is stored only if
`is_swap_feasible(t1,t2,t3,t4)` holds; the stored value is
`cost_matrix[(t3.id,t4.id)] - cost_matrix[(t2.id,t3.id)]`. -/
def gbnConsider {n : ℕ} {α : Type} [LinearOrder α] [Sub α] (s : TourState n)
    (costM : ℕ × ℕ → α) (t2 : Fin n)
    (t1 : Option (Fin n)) (acc : List ((Fin n × Fin n) × α)) (t3 t4 : Fin n) :
    List ((Fin n × Fin n) × α) :=
  match t1 with
  | some u1 =>
    if isSwapFeasible s u1 t2 t3 t4 then
      dictInsert acc (t3, t4) (costM (s.ids t3, s.ids t4) - costM (s.ids t2, s.ids t3))
    else acc
  | none =>
    dictInsert acc (t3, t4) (costM (s.ids t3, s.ids t4) - costM (s.ids t2, s.ids t3))

/-- `Tsp.get_best_neighbors` (lines 151-181): for each stored closest
neighbor `t3` of `t2` and each `t4 in (t3.pred, t3.succ)` the gain is
recorded in a dict, which is finally sorted descending by gain
(`sorted(..., reverse=True)`, a stable sort). -/
def getBestNeighbors {n : ℕ} {α : Type} [LinearOrder α] [Sub α]
    (s : TourState n) (costM : ℕ × ℕ → α)
    (closest : Fin n → List (Fin n)) (t2 : Fin n) (t1 : Option (Fin n)) :
    List ((Fin n × Fin n) × α) :=
  List.insertionSort (fun a b => b.2 ≤ a.2)
    ((closest t2).foldl
      (fun acc t3 =>
        gbnConsider s costM t2 t1
          (gbnConsider s costM t2 t1 acc t3 (s.pred t3)) t3 (s.succ t3))
      [])

theorem foldl_induction {α β : Type} (f : β → α → β) (P : β → Prop) :
    ∀ (l : List α) (acc : β), P acc →
      (∀ b a, a ∈ l → P b → P (f b a)) → P (l.foldl f acc) := by
  intro l
  induction l with
  | nil => intro acc h _; exact h
  | cons x xs ih =>
    intro acc h hf
    exact ih _ (hf acc x (by simp) h)
      (fun b a ha hb => hf b a (by simp [ha]) hb)

theorem dictInsert_forall {K V : Type} [DecidableEq K] (P : K × V → Prop)
    (l : List (K × V)) (k : K) (v : V) (hl : ∀ p ∈ l, P p) (hkv : P (k, v)) :
    ∀ p ∈ dictInsert l k v, P p := by
  unfold dictInsert
  split_ifs
  · intro p hp
    rcases List.mem_map.mp hp with ⟨q, hq, rfl⟩
    by_cases hqk : q.1 = k
    · rw [if_pos hqk]; exact hkv
    · rw [if_neg hqk]; exact hl q hq
  · intro p hp
    rcases List.mem_append.mp hp with h | h
    · exact hl p h
    · rw [List.mem_singleton.mp h]; exact hkv

theorem gbnConsider_forall {n : ℕ} {α : Type} [LinearOrder α] [Sub α]
    (s : TourState n) (costM : ℕ × ℕ → α)
    (t2 : Fin n) (t1 : Option (Fin n)) (P : (Fin n × Fin n) × α → Prop)
    (acc : List ((Fin n × Fin n) × α)) (t3 t4 : Fin n)
    (hacc : ∀ p ∈ acc, P p)
    (hok : (∀ u1, t1 = some u1 → isSwapFeasible s u1 t2 t3 t4 = true) →
      P ((t3, t4), costM (s.ids t3, s.ids t4) - costM (s.ids t2, s.ids t3))) :
    ∀ p ∈ gbnConsider s costM t2 t1 acc t3 t4, P p := by
  match t1 with
  | some u1 =>
    show ∀ p ∈ (if isSwapFeasible s u1 t2 t3 t4 then _ else acc), P p
    split_ifs with hfeas
    · exact dictInsert_forall P acc _ _ hacc
        (hok (fun u1' hu => by rw [(Option.some.injEq _ _ ▸ hu : u1 = u1')] at hfeas; exact hfeas))
    · exact hacc
  | none =>
    exact dictInsert_forall P acc _ _ hacc (hok (fun u1' hu => by simp at hu))

/-- **C7.**  Every pair `((t3,t4), gain)` returned by
`get_best_neighbors(t2, t1)` has `t3` among the stored closest neighbors of
`t2`, `t4` equal to `t3.pred` or `t3.succ`, and gain
`cost_matrix[(t3.id,t4.id)] - cost_matrix[(t2.id,t3.id)]`; the returned
list is sorted in non-increasing gain order; and when `t1` is supplied
every returned pair satisfies `is_swap_feasible(t1,t2,t3,t4)`. -/
theorem get_best_neighbors_spec {n : ℕ} {α : Type} [LinearOrder α] [Sub α]
    (s : TourState n)
    (costM : ℕ × ℕ → α) (closest : Fin n → List (Fin n)) (t2 : Fin n)
    (t1 : Option (Fin n)) :
    (∀ p ∈ getBestNeighbors s costM closest t2 t1,
      p.1.1 ∈ closest t2 ∧
      (p.1.2 = s.pred p.1.1 ∨ p.1.2 = s.succ p.1.1) ∧
      p.2 = costM (s.ids p.1.1, s.ids p.1.2) - costM (s.ids t2, s.ids p.1.1) ∧
      (∀ u1, t1 = some u1 → isSwapFeasible s u1 t2 p.1.1 p.1.2 = true)) ∧
    (getBestNeighbors s costM closest t2 t1).Sorted (fun a b => b.2 ≤ a.2) := by
  constructor
  · intro p hp
    have hp' : p ∈ (closest t2).foldl
        (fun acc t3 =>
          gbnConsider s costM t2 t1
            (gbnConsider s costM t2 t1 acc t3 (s.pred t3)) t3 (s.succ t3))
        [] := by
      rw [← List.mem_insertionSort (fun a b => b.2 ≤ a.2)]
      exact hp
    refine foldl_induction _
      (fun acc => ∀ q ∈ acc,
        q.1.1 ∈ closest t2 ∧
        (q.1.2 = s.pred q.1.1 ∨ q.1.2 = s.succ q.1.1) ∧
        q.2 = costM (s.ids q.1.1, s.ids q.1.2) - costM (s.ids t2, s.ids q.1.1) ∧
        (∀ u1, t1 = some u1 → isSwapFeasible s u1 t2 q.1.1 q.1.2 = true))
      (closest t2) [] (by simp) ?_ p hp'
    intro acc t3 ht3 hacc
    refine gbnConsider_forall s costM t2 t1 _ _ t3 (s.succ t3)
      (gbnConsider_forall s costM t2 t1 _ acc t3 (s.pred t3) hacc ?_) ?_
    · intro hfeas
      exact ⟨ht3, Or.inl rfl, rfl, hfeas⟩
    · intro hfeas
      exact ⟨ht3, Or.inr rfl, rfl, hfeas⟩
  · haveI : IsTotal ((Fin n × Fin n) × α) (fun a b => b.2 ≤ a.2) :=
      ⟨fun a b => le_total b.2 a.2⟩
    haveI : IsTrans ((Fin n × Fin n) × α) (fun a b => b.2 ≤ a.2) :=
      ⟨fun a b c h1 h2 => le_trans h2 h1⟩
    exact List.sorted_insertionSort _ _

end LK

namespace LK

/-- A demo cost matrix keyed by node ids: the distance along the line of
`demoData6` coordinates. -/
def costDemo : ℕ × ℕ → ℚ := fun p => |(p.1 : ℚ) - (p.2 : ℚ)|

/-- A demo closest-neighbors table: every node's two cyclic neighbors. -/
def closestDemo : Fin 6 → List (Fin 6) := fun i => [i + 1, i - 1]

/-- Witness for `get_best_neighbors_spec`: the six-node demo tour with
`t2 = 1` and `t1 = 0`. -/
theorem get_best_neighbors_spec_witness :
    (∀ p ∈ getBestNeighbors demoTour6 costDemo closestDemo 1 (some 0),
      p.1.1 ∈ closestDemo 1 ∧
      (p.1.2 = demoTour6.pred p.1.1 ∨ p.1.2 = demoTour6.succ p.1.1) ∧
      p.2 = costDemo (demoTour6.ids p.1.1, demoTour6.ids p.1.2) -
        costDemo (demoTour6.ids 1, demoTour6.ids p.1.1) ∧
      (∀ u1, (some 0 : Option (Fin 6)) = some u1 →
        isSwapFeasible demoTour6 u1 1 p.1.1 p.1.2 = true)) ∧
    (getBestNeighbors demoTour6 costDemo closestDemo 1 (some 0)).Sorted
      (fun a b => b.2 ≤ a.2) :=
  get_best_neighbors_spec demoTour6 costDemo closestDemo 1 (some 0)

end LK

namespace LK

/-- `Edge.__init__`/`__eq__`/`__hash__` of `lk_heuristic/models/edge.py` at
the id level: an edge used in the lk2 sets is the unordered pair of its
endpoint ids, canonically ordered. -/
def mkEdgeIdNat (a b : ℕ) : ℕ × ℕ := if a < b then (a, b) else (b, a)

/-- `tuple([node.succ.id for node in self.tour.nodes])` (tsp.py lines 778
and 903): the successor-id sequence over the node list, whose hash keys the
solutions set. -/
def succIds {n : ℕ} (t : TourFull n) : List ℕ :=
  (List.finRange n).map (fun i => t.st.ids (t.st.succ i))

/-- `Tsp.set_closest_neighboors` (lines 127-149) for one node: all other
nodes in node-list order, paired with the cost-matrix entry, sorted
ascending by cost (Python `sorted` is stable), truncated to `k`. -/
def setClosestNeighbors {n : ℕ} {α : Type} [LinearOrder α]
    (costM : ℕ × ℕ → α) (s : TourState n) (k : ℕ)
    (n1 : Fin n) : List (Fin n) :=
  ((List.insertionSort (fun a b => a.2 ≤ b.2)
    (((List.finRange n).filter (fun n2 => n2 ≠ n1)).map
      (fun n2 => (n2, costM (s.ids n1, s.ids n2))))).take k).map Prod.fst

/-- The `Tsp` state read by the lk2 search: the cost matrix, the static
closest-neighbors table, the stored tour edge set `self.tour.edges` (id
pairs; never refreshed after construction), the solutions set (as the
stored succ-id sequences) and `gain_precision = 0.01`. -/
structure LKCtx (n : ℕ) (α : Type) where
  costM : ℕ × ℕ → α
  closest : Fin n → List (Fin n)
  edges0 : List (ℕ × ℕ)
  solutions : List (List ℕ)
  gainPrecision : α

mutual

/-- `Tsp.lk2_select_broken_edge` (lines 726-810): guard checks, the
recorded `swap_feasible`, the repeated-tour check against `solutions`, the
gain test, and the recursion into `lk2_select_joined_edge` on a
non-improving gain.  `fuel` bounds the recursion depth; the boolean result
is paired with the tour threaded through the calls. -/
def lk2SelectBrokenEdge {n : ℕ} {α : Type} [LinearOrder α] [Sub α] [Add α]
    [NeZero n] (ctx : LKCtx n α) :
    ℕ → α → Fin n → Fin n → Fin n → Fin n → TourFull n →
      List (ℕ × ℕ) → List (ℕ × ℕ) → Bool × TourFull n
  | 0, _, _, _, _, _, tour, _, _ => (false, tour)
  | fuel + 1, gain, t1, t2, t3, t4, tour, broken, joined =>
    let brokenEdge := mkEdgeIdNat (tour.st.ids t3) (tour.st.ids t4)
    let brokenCost := ctx.costM (tour.st.ids t3, tour.st.ids t4)
    if t1 ≠ t4 ∧ brokenEdge ∉ joined ∧ brokenEdge ∉ broken then
      if isSwapFeasible tour.st t1 t2 t3 t4 then
        let tour1 := Tour.swapFeasible tour t1 t2 t3 t4 false true
        let broken1 := broken ++ [brokenEdge]
        let joinedCost := ctx.costM (tour.st.ids t4, tour.st.ids t1)
        let currGain := gain + (brokenCost - joinedCost)
        if succIds tour1 ∈ ctx.solutions then (false, tour1)
        else if currGain > ctx.gainPrecision then (true, tour1)
        else lk2SelectJoinedEdge ctx fuel currGain t1 t4 tour1 broken1 joined
      else (false, tour)
    else (false, tour)

/-- `Tsp.lk2_select_joined_edge` (lines 812-857): loop over
`get_best_neighbors(t4, t1)` looking for an admissible joined edge. -/
def lk2SelectJoinedEdge {n : ℕ} {α : Type} [LinearOrder α] [Sub α] [Add α]
    [NeZero n] (ctx : LKCtx n α) :
    ℕ → α → Fin n → Fin n → TourFull n →
      List (ℕ × ℕ) → List (ℕ × ℕ) → Bool × TourFull n
  | 0, _, _, _, tour, _, _ => (false, tour)
  | fuel + 1, gain, t1, t4, tour, broken, joined =>
    lk2JoinedLoop ctx fuel gain t1 t4 tour broken joined
      (getBestNeighbors tour.st ctx.costM ctx.closest t4 (some t1))

/-- The `for (node, neighbor_node), _ in ...` loop body of
`lk2_select_joined_edge` (lines 836-854): the first candidate passing the
disjointness, tour-edge and gain checks recurses into
`lk2_select_broken_edge`; exhausting the list returns false. -/
def lk2JoinedLoop {n : ℕ} {α : Type} [LinearOrder α] [Sub α] [Add α]
    [NeZero n] (ctx : LKCtx n α) :
    ℕ → α → Fin n → Fin n → TourFull n → List (ℕ × ℕ) → List (ℕ × ℕ) →
      List ((Fin n × Fin n) × α) → Bool × TourFull n
  | 0, _, _, _, tour, _, _, _ => (false, tour)
  | _ + 1, _, _, _, tour, _, _, [] => (false, tour)
  | fuel + 1, gain, t1, t4, tour, broken, joined, ((node, nbNode), _) :: rest =>
    let brokenCost := ctx.costM (tour.st.ids t4, tour.st.ids t1)
    let joinedEdge := mkEdgeIdNat (tour.st.ids t4) (tour.st.ids node)
    let joinedCost := ctx.costM (tour.st.ids t4, tour.st.ids node)
    let currGain := gain + (brokenCost - joinedCost)
    if joinedEdge ∉ broken ∧ joinedEdge ∉ ctx.edges0 ∧
        currGain > ctx.gainPrecision then
      lk2SelectBrokenEdge ctx fuel currGain t1 t4 node nbNode tour broken
        (joined ++ [joinedEdge])
    else lk2JoinedLoop ctx fuel gain t1 t4 tour broken joined rest

end

end LK

namespace LK

/-- A six-node symmetric cost matrix (keyed by node ids) engineered so that
the first attempt of `lk2_main` on the fresh demo tour performs the
equal-arc feasible swap `(0,5,2,3)` and then fails.  Costs are stated in
units of `1/100`, so `gain_precision = 0.01` becomes the integer `1`; all
comparisons in the run are preserved exactly under this rescaling. -/
def costC5 : ℕ × ℕ → ℤ := fun p =>
  let q := if p.1 ≤ p.2 then (p.1, p.2) else (p.2, p.1)
  if q.1 = q.2 then 0
  else if q = (0, 5) then 1000
  else if q = (2, 5) then 100
  else if q = (2, 3) then 100
  else if q = (0, 3) then 2000
  else if q = (1, 3) then 3000
  else if q = (3, 5) then 3100
  else if q = (1, 2) then 100
  else if q = (3, 4) then 100
  else if q = (1, 5) then 3000
  else 5000

/-- The `Tsp` state right after construction on the demo instance:
closest-neighbors from the cost matrix with `max(backtracking) = 5`, the
initial tour edge set, no recorded solutions, `gain_precision = 0.01`. -/
def ctxC5 : LKCtx 6 ℤ :=
  { costM := costC5
    closest := setClosestNeighbors costC5 demoTour6 5
    edges0 := (List.finRange 6).map
      (fun i => mkEdgeIdNat (demoTour6.ids i) (demoTour6.ids (demoTour6.succ i)))
    solutions := []
    gainPrecision := 1 }

end LK

namespace LK

/-- The first attempt `lk2_main` makes on the demo instance: `t1 = 0`,
`t2 = t1.pred = 5`, head candidate `(t3,t4) = (2,3)` of
`get_best_neighbors(5, 0)`, outer gain `c(0,5) - c(2,5)`, with the broken
and joined edge sets seeded as in tsp.py lines 893-894. -/
def lk2AttemptC5 : Bool × TourFull 6 :=
  lk2SelectBrokenEdge ctxC5 20 (costC5 (0, 5) - costC5 (2, 5)) 0 5 2 3 demoFull6
    [mkEdgeIdNat 0 5] [mkEdgeIdNat 2 5]

/-- **C5.**  The claim's failure half is false: on the engineered six-node
instance, the first attempt of `lk2_main` (breaking `(0,5)` with head
candidate `(2,3)`) performs the recorded equal-arc feasible swap
`swap_feasible(0,5,2,3)` and then fails, `lk2_select_broken_edge` returning
false; `lk2_main` thereupon calls `tour.restore()`, but the restored tour
is the orientation reversal of the tour at the start of the attempt —
every node's `succ` equals its pre-attempt `pred` (in particular
`succ(0) = 5` instead of `1`), not its pre-attempt `succ` as claimed. -/
theorem lk2_failed_attempt_not_restored :
    (getBestNeighbors demoTour6 costC5 ctxC5.closest 5 (some 0)).head? =
      some ((2, 3), 0) ∧
    mkEdgeIdNat 2 5 ∉ ctxC5.edges0 ∧
    costC5 (0, 5) - costC5 (2, 5) > ctxC5.gainPrecision ∧
    lk2AttemptC5.1 = false ∧
    lk2AttemptC5.2.stack ≠ [] ∧
    (∀ x : Fin 6, (Tour.restore lk2AttemptC5.2 none).st.succ x = demoTour6.pred x) ∧
    (Tour.restore lk2AttemptC5.2 none).st.succ 0 = 5 ∧
    demoTour6.succ 0 = 1 := by
  decide

end LK
